import Mathlib

/-!
Shallow embedding of the generic graph store (`src/graph.rs`) and its
traversal and pathfinding algorithms (`src/graph_algo/{search,dijkstra,astar}.rs`)
of the aoc25 repository, together with proofs about them.

The `BTreeMap` fields of `Graph` are modelled as association lists kept in
strictly increasing key order (the order `BTreeMap` iterates in); the
`BTreeSet` priority structures of `dijkstra`/`astar` are modelled as lists
sorted strictly by cost, where inserting an element whose cost is already
present leaves the set unchanged (the `Ord` instances of `EdgeCost` and
`HeuristicCost` compare only the cost, so `BTreeSet` treats equal-cost
entries as the same element and `insert` keeps the old one).

Rust `Vec` indexing panics out of bounds and the loops are fuel-limited,
so every loop returns a `Res`: `panicked` for an index out of bounds,
`outOfFuel` when the fuel bound is hit, `ok` for a normal return.
-/

/-- Result of running an embedded loop: a Rust panic (out-of-bounds Vec
index), exhaustion of the fuel bound, or a normal return. -/
inductive Res (A : Type) where
  | panicked : Res A
  | outOfFuel : Res A
  | ok : A → Res A
deriving DecidableEq, Repr

/-- Edge keys: `Edge(usize, usize)` with its derived lexicographic order. -/
abbrev Edge := Nat × Nat

/-- Canonical edge key, from `Edge::new`: endpoints ordered smallest first. -/
def Edge.new (a b : Nat) : Edge :=
  if a ≤ b then (a, b) else (b, a)

/-- Whether the edge has `node` as an endpoint, from `Edge::touches`. -/
def Edge.touches (e : Edge) (node : Nat) : Bool :=
  e.1 = node || e.2 = node

/-- Lexicographic strict order on edge keys (the derived `Ord` of `Edge`). -/
def ekLt (x y : Edge) : Bool :=
  x.1 < y.1 || (x.1 = y.1 && x.2 < y.2)

/-- Insert into the node map (sorted association list), returning the new
map and the previous value at the key, as `BTreeMap::insert` does. -/
def nmInsert (k : Nat) (v : V) : List (Nat × V) → List (Nat × V) × Option V
  | [] => ([(k, v)], none)
  | (k', v') :: t =>
    if k < k' then ((k, v) :: (k', v') :: t, none)
    else if k = k' then ((k, v) :: t, some v')
    else
      let r := nmInsert k v t
      ((k', v') :: r.1, r.2)

/-- Look up a key in the node map. -/
def nmGet (k : Nat) : List (Nat × V) → Option V
  | [] => none
  | (k', v') :: t => if k = k' then some v' else nmGet k t

/-- Remove a key from the node map, returning the new map and the removed
value, as `BTreeMap::remove` does. -/
def nmRemove (k : Nat) : List (Nat × V) → List (Nat × V) × Option V
  | [] => ([], none)
  | (k', v') :: t =>
    if k = k' then (t, some v')
    else
      let r := nmRemove k t
      ((k', v') :: r.1, r.2)

/-- Insert into the edge map (sorted association list). -/
def emInsert (k : Edge) (v : E) : List (Edge × E) → List (Edge × E) × Option E
  | [] => ([(k, v)], none)
  | (k', v') :: t =>
    if ekLt k k' then ((k, v) :: (k', v') :: t, none)
    else if k = k' then ((k, v) :: t, some v')
    else
      let r := emInsert k v t
      ((k', v') :: r.1, r.2)

/-- Look up a key in the edge map. -/
def emGet (k : Edge) : List (Edge × E) → Option E
  | [] => none
  | (k', v') :: t => if k = k' then some v' else emGet k t

/-- Remove a key from the edge map. -/
def emRemove (k : Edge) : List (Edge × E) → List (Edge × E) × Option E
  | [] => ([], none)
  | (k', v') :: t =>
    if k = k' then (t, some v')
    else
      let r := emRemove k t
      ((k', v') :: r.1, r.2)

/-- The graph store `Graph<V, E>` of `src/graph.rs`. -/
structure Graph (V E : Type) where
  nodes : List (Nat × V)
  edges : List (Edge × E)
deriving DecidableEq, Repr

/-- The empty graph, from `Graph::new`. -/
def Graph.new : Graph V E := ⟨[], []⟩

/-- From `Graph::add_node`: inserts at key `nodes.len()` and returns the
new graph together with that index. -/
def Graph.add_node (g : Graph V E) (data : V) : Graph V E × Nat :=
  let index := g.nodes.length
  let r := nmInsert index data g.nodes
  (⟨r.1, g.edges⟩, index)

/-- From `Graph::remove_node`: removes the node entry and retains only the
edges not touching `index`; returns the removed value. -/
def Graph.remove_node (g : Graph V E) (index : Nat) : Graph V E × Option V :=
  let r := nmRemove index g.nodes
  (⟨r.1, g.edges.filter (fun p => !(p.1.touches index))⟩, r.2)

/-- From `Graph::get_node`. -/
def Graph.get_node (g : Graph V E) (index : Nat) : Option V :=
  nmGet index g.nodes

/-- From `Graph::neighbors`: scans the edge map in key order, keeping the
edges touching `index` and yielding the other endpoint with the value. -/
def Graph.neighbors (g : Graph V E) (index : Nat) : List (Nat × E) :=
  (g.edges.filter (fun p => p.1.touches index)).map
    (fun p => if p.1.1 = index then (p.1.2, p.2) else (p.1.1, p.2))

/-- From `Graph::get_edge`: looks up the canonical key. -/
def Graph.get_edge (g : Graph V E) (a b : Nat) : Option E :=
  emGet (Edge.new a b) g.edges

/-- From `Graph::are_neighbors`. -/
def Graph.are_neighbors (g : Graph V E) (a b : Nat) : Bool :=
  (g.get_edge a b).isSome

/-- From `Graph::add_edge`: inserts at the canonical key with no endpoint
validation; returns the new graph and the previous value. -/
def Graph.add_edge (g : Graph V E) (a b : Nat) (data : E) : Graph V E × Option E :=
  let r := emInsert (Edge.new a b) data g.edges
  (⟨g.nodes, r.1⟩, r.2)

/-- From `Graph::remove_edge`. -/
def Graph.remove_edge (g : Graph V E) (a b : Nat) : Graph V E × Option E :=
  let r := emRemove (Edge.new a b) g.edges
  (⟨g.nodes, r.1⟩, r.2)

/-- From `Graph::num_nodes`. -/
def Graph.num_nodes (g : Graph V E) : Nat := g.nodes.length

/-- From `Graph::num_edges`. -/
def Graph.num_edges (g : Graph V E) : Nat := g.edges.length

/-- The traversal mode of `src/graph_algo/search.rs`. -/
inductive SearchMode where
  | BreadthFirst
  | DepthFirst
deriving DecidableEq, Repr

/-- From `SearchMode::next`: pop the pending deque at the front (queue)
or at the back (stack). Only called on nonempty deques. -/
def SearchMode.next (m : SearchMode) (q : List Nat) : Nat × List Nat :=
  match m with
  | .BreadthFirst => (q.headD 0, q.tail)
  | .DepthFirst => (q.getLastD 0, q.dropLast)

/-- Path reconstruction shared by `search`, `dijkstra` (via its `weights`
back-pointers) and `astar`: repeatedly read the back-pointer of the most
recently pushed node, stopping when the pointer is absent or after pushing
`frm`. The accumulator is kept most-recent-first, so the source's final
`path.reverse()` is already accounted for. -/
def rebuildS (cf : List (Option Nat)) (frm : Nat) : Nat → List Nat → Res (List Nat)
  | 0, _ => .outOfFuel
  | _ + 1, [] => .panicked
  | fuel + 1, last :: racc =>
    match cf[last]? with
    | none => .panicked
    | some none => .ok (last :: racc)
    | some (some n) =>
      if n = frm then .ok (n :: last :: racc)
      else rebuildS cf frm fuel (n :: last :: racc)

/-- Neighbor scan of `Graph::search`: for each neighbor, skip it if its
back-pointer is set, otherwise push it at the back and point it at `cur`. -/
def searchScan (cur : Nat) :
    List (Nat × E) → List (Option Nat) → List Nat → Res (List (Option Nat) × List Nat)
  | [], cf, queue => .ok (cf, queue)
  | (node, _) :: t, cf, queue =>
    match cf[node]? with
    | none => .panicked
    | some (some _) => searchScan cur t cf queue
    | some none => searchScan cur t (cf.set node (some cur)) (queue ++ [node])

/-- Main loop of `Graph::search`. -/
def searchLoop (g : Graph V E) (frm tgt : Nat) (mode : SearchMode) :
    Nat → List (Option Nat) → List Nat → Res (Option (List Nat))
  | fuel, cf, queue =>
    if queue.isEmpty then .ok none
    else
      match fuel with
      | 0 => .outOfFuel
      | fuel + 1 =>
        let pr := mode.next queue
        let cur := pr.1
        if cur = tgt then
          match rebuildS cf frm (cf.length + 2) [cur] with
          | .ok path => .ok (some path)
          | .panicked => .panicked
          | .outOfFuel => .outOfFuel
        else
          match searchScan cur (g.neighbors cur) cf pr.2 with
          | .panicked => .panicked
          | .outOfFuel => .outOfFuel
          | .ok st => searchLoop g frm tgt mode fuel st.1 st.2

/-- From `Graph::search`: breadth- or depth-first path search with
back-pointer reconstruction. `fuel` bounds the number of loop iterations. -/
def Graph.search (g : Graph V E) (frm tgt : Nat) (mode : SearchMode) (fuel : Nat) :
    Res (Option (List Nat)) :=
  searchLoop g frm tgt mode fuel (List.replicate g.num_nodes none) [frm]

/-- Neighbor scan of `GraphVisitor::next`: for each neighbor, skip it if
visited, otherwise push it at the back and mark it visited. -/
def visitScan :
    List (Nat × E) → List Bool → List Nat → Res (List Bool × List Nat)
  | [], visited, queue => .ok (visited, queue)
  | (node, _) :: t, visited, queue =>
    match visited[node]? with
    | none => .panicked
    | some true => visitScan t visited queue
    | some false => visitScan t (visited.set node true) (queue ++ [node])

/-- Repeatedly calling `GraphVisitor::next` until it returns `None` and
collecting the yielded pairs. An absent node value makes `next` return
`None`, which ends the collection normally. -/
def visitLoop (g : Graph V E) (mode : SearchMode) :
    Nat → List Bool → List Nat → Res (List (Nat × V))
  | fuel, visited, queue =>
    if queue.isEmpty then .ok []
    else
      match fuel with
      | 0 => .outOfFuel
      | fuel + 1 =>
        let pr := mode.next queue
        let cur := pr.1
        match visitScan (g.neighbors cur) visited pr.2 with
        | .panicked => .panicked
        | .outOfFuel => .outOfFuel
        | .ok st =>
          match g.get_node cur with
          | none => .ok []
          | some v =>
            match visitLoop g mode fuel st.1 st.2 with
            | .ok rest => .ok ((cur, v) :: rest)
            | r => r

/-- From `Graph::visit`: fully consuming the returned iterator. The
constructor itself indexes `visited[from]`, hence the bounds check. -/
def Graph.visit (g : Graph V E) (frm : Nat) (mode : SearchMode) (fuel : Nat) :
    Res (List (Nat × V)) :=
  if frm < g.num_nodes then
    visitLoop g mode fuel ((List.replicate g.num_nodes false).set frm true) [frm]
  else .panicked

/-- Insertion into the `BTreeSet` priority structures of `dijkstra` and
`astar`: ordered by cost alone, so an element whose cost is already present
is dropped and the old element kept. -/
def heapInsert [LinearOrder C] (c : C) (x : Nat) : List (C × Nat) → List (C × Nat)
  | [] => [(c, x)]
  | (c', y) :: t =>
    if c < c' then (c, x) :: (c', y) :: t
    else if c = c' then (c', y) :: t
    else (c', y) :: heapInsert c x t

/-- Neighbor scan of `Graph::dijkstra`: relax each neighbor unless a
strictly better weight is already recorded for it. -/
def dijkstraScan [LinearOrder C] [Add C] (node : Nat) (cost : C) :
    List (Nat × C) → List (Option (C × Nat)) → List (C × Nat) →
    Res (List (Option (C × Nat)) × List (C × Nat))
  | [], weights, heap => .ok (weights, heap)
  | (next, w) :: t, weights, heap =>
    let total := cost + w
    match weights[next]? with
    | none => .panicked
    | some (some pr) =>
      if pr.1 < total then dijkstraScan node cost t weights heap
      else dijkstraScan node cost t (weights.set next (some (total, node)))
        (heapInsert total next heap)
    | some none =>
      dijkstraScan node cost t (weights.set next (some (total, node)))
        (heapInsert total next heap)

/-- Main loop of `Graph::dijkstra`. The reconstruction walks the second
components of the `weights` entries, breaking after pushing `frm`. -/
def dijkstraLoop [LinearOrder C] [Add C] (g : Graph V C) (frm tgt : Nat) :
    Nat → List (Option (C × Nat)) → List (C × Nat) → Res (Option (C × List Nat))
  | _, _, [] => .ok none
  | 0, _, _ :: _ => .outOfFuel
  | fuel + 1, weights, (cost, node) :: hrest =>
        if node = tgt then
          match rebuildS (weights.map (fun o => o.map Prod.snd)) frm
              (weights.length + 2) [node] with
          | .ok path => .ok (some (cost, path))
          | .panicked => .panicked
          | .outOfFuel => .outOfFuel
        else
          match dijkstraScan node cost (g.neighbors node) weights hrest with
          | .panicked => .panicked
          | .outOfFuel => .outOfFuel
          | .ok st => dijkstraLoop g frm tgt fuel st.1 st.2

/-- From `Graph::dijkstra`: weighted shortest-path search. The weight type
carries `Add`, `Zero` and a total order, as the Rust bounds require. -/
def Graph.dijkstra [LinearOrder C] [Add C] [Zero C] (g : Graph V C) (frm tgt : Nat)
    (fuel : Nat) : Res (Option (C × List Nat)) :=
  if frm < g.num_nodes then
    dijkstraLoop g frm tgt fuel
      ((List.replicate g.num_nodes (none : Option (C × Nat))).set frm (some (0, frm)))
      [((0 : C), frm)]
  else .panicked

/-- Neighbor scan of `Graph::astar`: the `?` on `get_node` aborts the whole
call with a normal `None` (modelled as `ok none`); otherwise the neighbor is
skipped if its back-pointer is set, else pointed at `node` and enqueued at
the heuristic value of the candidate edge. -/
def astarScan [LinearOrder C] (g : Graph V E) (h : V → E → C) (node : Nat) :
    List (Nat × E) → List (Option Nat) → List (C × Nat) →
    Res (Option (List (Option Nat) × List (C × Nat)))
  | [], visited, heap => .ok (some (visited, heap))
  | (next, edge) :: t, visited, heap =>
    match g.get_node next with
    | none => .ok none
    | some nv =>
      let eval := h nv edge
      match visited[next]? with
      | none => .panicked
      | some (some _) => astarScan g h node t visited heap
      | some none =>
        astarScan g h node t (visited.set next (some node)) (heapInsert eval next heap)

/-- Main loop of `Graph::astar`. -/
def astarLoop [LinearOrder C] (g : Graph V E) (h : V → E → C) (frm tgt : Nat) :
    Nat → List (Option Nat) → List (C × Nat) → Res (Option (List Nat))
  | _, _, [] => .ok none
  | 0, _, _ :: _ => .outOfFuel
  | fuel + 1, visited, (_, node) :: hrest =>
        if node = tgt then
          match rebuildS visited frm (visited.length + 2) [node] with
          | .ok path => .ok (some path)
          | .panicked => .panicked
          | .outOfFuel => .outOfFuel
        else
          match astarScan g h node (g.neighbors node) visited hrest with
          | .panicked => .panicked
          | .outOfFuel => .outOfFuel
          | .ok none => .ok none
          | .ok (some st) => astarLoop g h frm tgt fuel st.1 st.2

/-- From `Graph::astar`: heuristic-guided best-first search. The heuristic
codomain is any linearly ordered type with a least seed value standing for
the `f64` with its `total_cmp` order and the literal `0.0`. -/
def Graph.astar [LinearOrder C] [Zero C] (g : Graph V E) (frm tgt : Nat)
    (h : V → E → C) (fuel : Nat) : Res (Option (List Nat)) :=
  astarLoop g h frm tgt fuel (List.replicate g.num_nodes (none : Option Nat))
    [((0 : C), frm)]

/-! ## Specification-side predicates -/

/-- Two node identifiers are adjacent when some edge of the store joins
them, in either orientation. -/
def adjB (g : Graph V E) (a b : Nat) : Bool :=
  g.edges.any (fun p => (p.1.1 = a && p.1.2 = b) || (p.1.1 = b && p.1.2 = a))

/-- Reachability by following edges transitively (reflexive in the source
node, matching the traversal semantics which always yield the start). -/
def Reach (g : Graph V E) (a b : Nat) : Prop :=
  Relation.ReflTransGen (fun x y => adjB g x y = true) a b

/-- Consecutive nodes of the list are adjacent in the graph. -/
def walkChain (g : Graph V E) : List Nat → Bool
  | [] => true
  | [_] => true
  | a :: b :: t => adjB g a b && walkChain g (b :: t)

/-- A walk through the graph from `a` to `b`: nonempty node list starting
at `a`, ending at `b`, with consecutive nodes adjacent. -/
def IsWalk (g : Graph V E) (p : List Nat) (a b : Nat) : Prop :=
  p.head? = some a ∧ p.getLast? = some b ∧ walkChain g p = true

/-- Total edge weight of a walk, when every consecutive pair has an edge. -/
def walkCost [Add E] [Zero E] (g : Graph V E) : List Nat → Option E
  | [] => some 0
  | [_] => some 0
  | a :: b :: t =>
    match g.get_edge a b, walkCost g (b :: t) with
    | some w, some rest => some (w + rest)
    | _, _ => none

/-- Keys strictly increase along the node map (`BTreeMap` iteration order). -/
def sortedNodeKeys : List (Nat × V) → Bool
  | [] => true
  | [_] => true
  | a :: b :: t => decide (a.1 < b.1) && sortedNodeKeys (b :: t)

/-- Keys strictly increase along the edge map. -/
def sortedEdgeKeys : List (Edge × E) → Bool
  | [] => true
  | [_] => true
  | a :: b :: t => ekLt a.1 b.1 && sortedEdgeKeys (b :: t)

/-- Every edge key is canonical: smaller endpoint first. -/
def canonicalEdges (l : List (Edge × E)) : Bool :=
  l.all (fun p => decide (p.1.1 ≤ p.1.2))

/-- Well-formedness maintained by the store: both maps are strictly sorted
by key (as `BTreeMap` guarantees) and edge keys are canonical. -/
def Graph.WF (g : Graph V E) : Prop :=
  sortedNodeKeys g.nodes = true ∧ sortedEdgeKeys g.edges = true ∧
  canonicalEdges g.edges = true

instance (g : Graph V E) : Decidable g.WF :=
  inferInstanceAs (Decidable (sortedNodeKeys g.nodes = true ∧
    sortedEdgeKeys g.edges = true ∧ canonicalEdges g.edges = true))

/-- Density: every node identifier and every edge endpoint is below the
node count. This holds as long as no node has been removed, and is exactly
what the fixed-size visited/back-pointer vectors of the algorithms assume. -/
def Graph.Dense (g : Graph V E) : Prop :=
  (∀ p ∈ g.nodes, p.1 < g.nodes.length) ∧
  (∀ p ∈ g.edges, p.1.1 < g.nodes.length ∧ p.1.2 < g.nodes.length)

instance (g : Graph V E) : Decidable g.Dense :=
  inferInstanceAs (Decidable ((∀ p ∈ g.nodes, p.1 < g.nodes.length) ∧
    (∀ p ∈ g.edges, p.1.1 < g.nodes.length ∧ p.1.2 < g.nodes.length)))

/-- Apply `add_node` once for each value in the list, collecting the
returned identifiers in order. -/
def Graph.addAll (g : Graph V E) : List V → Graph V E × List Nat
  | [] => (g, [])
  | v :: t =>
    let r := g.add_node v
    let rest := r.1.addAll t
    (rest.1, r.2 :: rest.2)

instance (g : Graph V E) (p : List Nat) (a b : Nat) : Decidable (IsWalk g p a b) :=
  inferInstanceAs (Decidable (p.head? = some a ∧ p.getLast? = some b ∧ walkChain g p = true))

/-! ## Concrete graphs used by the claims -/

/-- Ten unit nodes, matching the `for _ in 0..10 add_node` of the tests. -/
def unitGraph (n : Nat) : Graph Unit Nat :=
  ((Graph.new : Graph Unit Nat).addAll (List.replicate n ())).1

/-- The dijkstra test fixture of `src/graph_algo/dijkstra.rs`. -/
def gDij : Graph Unit Nat :=
  let g := ((unitGraph 10).add_edge 0 1 2).1
  let g := (g.add_edge 1 2 2).1
  let g := (g.add_edge 2 3 2).1
  let g := (g.add_edge 3 4 2).1
  (g.add_edge 0 4 10).1

/-- A positively weighted graph on which the cost-only heap ordering makes
`dijkstra` drop the pending entry for node 2 (same cost as node 1). -/
def gOpt : Graph Unit Nat :=
  let g := ((unitGraph 4).add_edge 0 1 1).1
  let g := (g.add_edge 0 2 1).1
  let g := (g.add_edge 2 3 1).1
  (g.add_edge 0 3 10).1

/-- A graph on which `dijkstra 0 3` misses the target although it is
reachable: the pending entry for node 2 is dropped by the cost-only heap. -/
def gMiss : Graph Unit Nat :=
  let g := ((unitGraph 4).add_edge 0 1 1).1
  let g := (g.add_edge 0 2 1).1
  (g.add_edge 2 3 1).1


/-- A store holding an edge whose endpoint 5 was never added as a node. -/
def gHang : Graph Unit Nat :=
  ((unitGraph 2).add_edge 0 5 7).1

/-- Two real nodes joined by an edge, plus an edge to the absent
identifier 9, which `add_edge` accepted without validation. -/
def gAst : Graph Unit Nat :=
  (((unitGraph 2).add_edge 0 1 3).1.add_edge 0 9 4).1

/-- A store whose node identifier 2 survives with only two nodes left:
built by adding three nodes, removing node 1, and joining 0 with 2. -/
def gSparse : Graph Unit Nat :=
  let g := ((Graph.new : Graph Unit Nat).addAll (List.replicate 3 ())).1
  ((g.remove_node 1).1.add_edge 0 2 0).1

/-- Like `gSparse` with four initial nodes: 0 is joined to 3 while 2 stays
disconnected, and identifier 3 is not below the node count 3. -/
def gSparse4 : Graph Unit Nat :=
  let g := ((Graph.new : Graph Unit Nat).addAll (List.replicate 4 ())).1
  ((g.remove_node 1).1.add_edge 0 3 0).1

/-- A zero-weight edge between nodes 0 and 1 while node 2 stays
disconnected: dijkstra keeps re-relaxing the cycle and never terminates. -/
def gZero : Graph Unit Nat :=
  (((Graph.new : Graph Unit Nat).addAll (List.replicate 3 ())).1.add_edge 0 1 0).1

/-- Number of unvisited slots: the termination measure component. -/
def countFalse (l : List Bool) : Nat :=
  (l.filter (fun b => b = false)).length

/-- Invariant tying the visited vector and pending deque of a traversal to
the store: correct vector length, pending nodes in bounds and marked,
marked nodes reachable from the root, no duplicate pending entries, and
fully processed nodes have all neighbors marked. -/
def VisitInv (g : Graph V E) (r : Nat) (visited : List Bool) (queue : List Nat) : Prop :=
  visited.length = g.num_nodes ∧
  (∀ x ∈ queue, x < g.num_nodes ∧ visited.getD x false = true) ∧
  (∀ x, visited.getD x false = true → Reach g r x) ∧
  queue.Nodup ∧
  (∀ x, visited.getD x false = true → x ∉ queue →
    ∀ y, adjB g x y = true → visited.getD y false = true)

/-- Three unit nodes with one weighted edge from 0 to 1; node 2 is
disconnected from 0. -/
def gUnreach : Graph Unit Nat :=
  ((unitGraph 3).add_edge 0 1 5).1

/-- Number of unset back-pointer slots: the termination measure component
of the search and astar loops. -/
def countNone (l : List (Option Nat)) : Nat :=
  (l.filter (fun o => o.isNone)).length

/-- A node is done for the search once it is the root or its back-pointer
is set; `search` treats the root as implicitly discovered (its slot staying
`None` is what allows the one harmless re-push of the root). -/
def doneB (cf : List (Option Nat)) (frm x : Nat) : Bool :=
  decide (x = frm) || (cf.getD x none).isSome

/-- Validity of the back-pointer array with respect to a ghost depth
assignment: every set pointer of a non-root node points to an adjacent,
already discovered node below the node count, one level up, and the depth
is bounded by the number of assigned pointers. -/
def PtrInv (g : Graph V E) (frm : Nat) (cf : List (Option Nat)) (φ : Nat → Nat) : Prop :=
  ∀ x p : Nat, x ≠ frm → cf.getD x none = some p →
    adjB g p x = true ∧ doneB cf frm p = true ∧ p < g.num_nodes ∧
    φ x = (if p = frm then 0 else φ p) + 1 ∧
    φ x + countNone cf ≤ g.num_nodes

/-- Invariant of the breadth-first `search` loop against a ghost depth
assignment and a current frontier level: correct back-pointer vector
length, pending nodes in bounds and discovered, valid back-pointers,
optimality of every recorded depth, the pending queue (root re-pushes
aside) split into a level-`k` block followed by a level-`k+1` block, every
node within `k` hops discovered, every neighbor of the root discovered,
and fully processed nodes having all neighbors discovered. -/
def BFSInv (g : Graph V E) (frm : Nat) (cf : List (Option Nat))
    (queue : List Nat) (φ : Nat → Nat) (k : Nat) : Prop :=
  cf.length = g.num_nodes ∧
  (∀ x ∈ queue, x < g.num_nodes ∧ doneB cf frm x = true) ∧
  PtrInv g frm cf φ ∧
  (∀ x, x ≠ frm → (cf.getD x none).isSome = true →
    ∀ q, IsWalk g q frm x → φ x + 1 ≤ q.length) ∧
  (∃ qa qb, queue.filter (fun y => y != frm) = qa ++ qb ∧
    (∀ x ∈ qa, φ x = k) ∧ (∀ x ∈ qb, φ x = k + 1)) ∧
  (∀ z q, IsWalk g q frm z → q.length ≤ k + 1 → doneB cf frm z = true) ∧
  (∀ y, adjB g frm y = true → doneB cf frm y = true) ∧
  (∀ x, doneB cf frm x = true → x ∉ queue →
    ∀ y, adjB g x y = true → doneB cf frm y = true)

/-! ## Map-level lemmas -/

theorem nmInsert_append (k : Nat) (v : V) (l : List (Nat × V))
    (h : ∀ p ∈ l, p.1 < k) : nmInsert k v l = (l ++ [(k, v)], none) := by
  induction l with
  | nil => rfl
  | cons a t ih =>
    have ha : a.1 < k := h a (List.mem_cons_self a t)
    obtain ⟨a1, a2⟩ := a
    simp only [nmInsert]
    rw [if_neg (by omega), if_neg (by omega)]
    rw [ih (fun p hp => h p (List.mem_cons_of_mem _ hp))]
    simp

theorem addAll_ids (vs : List V) (g : Graph V E)
    (h : g.nodes.map Prod.fst = List.range g.nodes.length) :
    (g.addAll vs).2 = List.range' g.nodes.length vs.length ∧
    (g.addAll vs).1.nodes.map Prod.fst = List.range (g.nodes.length + vs.length) := by
  induction vs generalizing g with
  | nil => constructor <;> simp [Graph.addAll, h]
  | cons v t ih =>
    have hlt : ∀ p ∈ g.nodes, p.1 < g.nodes.length := by
      intro p hp
      have : p.1 ∈ g.nodes.map Prod.fst := List.mem_map_of_mem Prod.fst hp
      rw [h] at this
      exact List.mem_range.mp this
    have hins : nmInsert g.nodes.length v g.nodes = (g.nodes ++ [(g.nodes.length, v)], none) :=
      nmInsert_append _ _ _ hlt
    have hg' : (g.add_node v).1.nodes = g.nodes ++ [(g.nodes.length, v)] := by
      simp [Graph.add_node, hins]
    have hmap : (g.add_node v).1.nodes.map Prod.fst =
        List.range ((g.add_node v).1.nodes.length) := by
      rw [hg']
      simp [List.range_succ, h]
    obtain ⟨h1, h2⟩ := ih (g.add_node v).1 hmap
    have hlen : (g.add_node v).1.nodes.length = g.nodes.length + 1 := by
      rw [hg']; simp
    constructor
    · simp only [Graph.addAll]
      rw [h1, hlen]
      have h2 : (g.add_node v).2 = g.nodes.length := rfl
      rw [h2, List.length_cons, List.range'_succ]
    · simp only [Graph.addAll]
      rw [h2, hlen, List.length_cons]
      congr 1
      omega
      

/-! ## Fuel monotonicity for the dijkstra loop -/

theorem dijkstraLoop_nil [LinearOrder C] [Add C] (g : Graph V C) (frm tgt f : Nat)
    (w : List (Option (C × Nat))) : dijkstraLoop g frm tgt f w [] = .ok none := by
  cases f <;> rfl

theorem dijkstraLoop_mono [LinearOrder C] [Add C] (g : Graph V C) (frm tgt : Nat) :
    ∀ f₁ (w : List (Option (C × Nat))) (hp : List (C × Nat)) f₂, f₁ ≤ f₂ →
      dijkstraLoop g frm tgt f₁ w hp ≠ .outOfFuel →
      dijkstraLoop g frm tgt f₂ w hp = dijkstraLoop g frm tgt f₁ w hp := by
  intro f₁
  induction f₁ with
  | zero =>
    intro w hp f₂ _ hne
    cases hp with
    | nil => rw [dijkstraLoop_nil, dijkstraLoop_nil]
    | cons a t => exact absurd rfl hne
  | succ f ih =>
    intro w hp f₂ hle hne
    cases hp with
    | nil => rw [dijkstraLoop_nil, dijkstraLoop_nil]
    | cons a t =>
      obtain ⟨f₂', rfl⟩ : ∃ k, f₂ = k + 1 := ⟨f₂ - 1, by omega⟩
      obtain ⟨cost, node⟩ := a
      by_cases htgt : node = tgt
      · subst htgt
        simp only [dijkstraLoop, if_pos rfl]
        simp
      · simp only [dijkstraLoop, if_neg htgt] at hne ⊢
        cases hscan : dijkstraScan node cost (g.neighbors node) w t with
        | panicked => rfl
        | outOfFuel => rfl
        | ok st =>
          rw [hscan] at hne
          exact ih st.1 st.2 f₂' (by omega) hne

theorem dijkstra_mono [LinearOrder C] [Add C] [Zero C] (g : Graph V C)
    (frm tgt f₁ f₂ : Nat) (hle : f₁ ≤ f₂) (h : g.dijkstra frm tgt f₁ ≠ .outOfFuel) :
    g.dijkstra frm tgt f₂ = g.dijkstra frm tgt f₁ := by
  by_cases hfr : frm < g.num_nodes
  · simp only [Graph.dijkstra, hfr, if_true] at h ⊢
    exact dijkstraLoop_mono g frm tgt f₁ _ _ f₂ hle h
  · simp only [Graph.dijkstra, hfr, if_false]

/-! ## Claim C1 -/

/-- Claim C1 counterexample: starting from the empty store, add two nodes
(identifiers 0 and 1), remove node 0, and add a third node: `add_node`
returns identifier 1 again — the identifier already assigned to the second
node — because the next identifier is the current node count. -/
theorem add_node_reuses_id_after_remove :
    (((((Graph.new : Graph Nat Unit).add_node 10).1.add_node 11).1.remove_node 0).1.add_node 12).2
      = 1 ∧
    (((Graph.new : Graph Nat Unit).add_node 10).1.add_node 11).2 = 1 ∧
    (((((Graph.new : Graph Nat Unit).add_node 10).1.add_node 11).1.remove_node 0).1.add_node 12).1.get_node 1
      = some 12 := by
  exact ⟨rfl, rfl, rfl⟩

/-- Claim C1 amended: `add_node` returns the node count before insertion,
so in any sequence of `add_node` operations with no removal the returned
identifiers are `0, 1, 2, …` in insertion order and never repeat; after a
`remove_node` an identifier can be assigned again. -/
theorem add_node_ids_fresh_without_removal (vs : List V) :
    ((Graph.new : Graph V E).addAll vs).2 = List.range vs.length ∧
    ∀ (g : Graph V E) (v : V), (g.add_node v).2 = g.num_nodes := by
  constructor
  · have h := addAll_ids vs (Graph.new : Graph V E) (by simp [Graph.new])
    have h0 : (Graph.new : Graph V E).nodes.length = 0 := rfl
    rw [h0] at h
    rw [h.1, List.range_eq_range']
  · intro g v
    rfl

/-! ## Claim C3 -/

/-- Claim C3: on the graph with nodes `0..=9` and the five weighted edges of
the source's own test, `dijkstra 0 4` returns weight 8 along `[0,1,2,3,4]`;
overwriting edge `(2,3)` with weight 6 returns the prior value 2, after
which `dijkstra 0 4` returns weight 10 along `[0,4]`. -/
theorem dijkstra_fixture_scenario (fuel : Nat) (h : 20 ≤ fuel) :
    gDij.dijkstra 0 4 fuel = .ok (some (8, [0, 1, 2, 3, 4])) ∧
    (gDij.add_edge 2 3 6).2 = some 2 ∧
    ((gDij.add_edge 2 3 6).1).dijkstra 0 4 fuel = .ok (some (10, [0, 4])) := by
  have e1 : gDij.dijkstra 0 4 20 = .ok (some (8, [0, 1, 2, 3, 4])) := by decide
  have e2 : ((gDij.add_edge 2 3 6).1).dijkstra 0 4 20 = .ok (some (10, [0, 4])) := by decide
  refine ⟨?_, by decide, ?_⟩
  · rw [dijkstra_mono gDij 0 4 20 fuel h (by simp [e1]), e1]
  · rw [dijkstra_mono _ 0 4 20 fuel h (by simp [e2]), e2]

theorem dijkstra_fixture_scenario_witness :
    20 ≤ 20 ∧
    (gDij.dijkstra 0 4 20 = .ok (some (8, [0, 1, 2, 3, 4])) ∧
    (gDij.add_edge 2 3 6).2 = some 2 ∧
    ((gDij.add_edge 2 3 6).1).dijkstra 0 4 20 = .ok (some (10, [0, 4]))) :=
  ⟨by decide, dijkstra_fixture_scenario 20 (by decide)⟩

/-! ## Claim C2 -/

/-- Claim C2 is right about the documented intent but the code violates it:
on `gOpt`, whose weights are all positive, `dijkstra 0 3` returns total
weight 10 with path `[0,3]` although `[0,2,3]` is a walk from 0 to 3 of
total weight 2; and on `gMiss` (same graph without the direct edge)
`dijkstra 0 3` returns no result at all although `[0,2,3]` still connects
0 to 3. The cost-only `BTreeSet` ordering drops the pending entry of node 2,
contradicting the function's own documentation. -/
theorem dijkstra_drops_equal_cost_entry (fuel : Nat) (h : 20 ≤ fuel) :
    gOpt.dijkstra 0 3 fuel = .ok (some (10, [0, 3])) ∧
    IsWalk gOpt [0, 2, 3] 0 3 ∧ walkCost gOpt [0, 2, 3] = some 2 ∧
    (∀ p ∈ gOpt.edges, 0 < p.2) ∧ (2 : Nat) < 10 ∧
    gMiss.dijkstra 0 3 fuel = .ok none ∧ IsWalk gMiss [0, 2, 3] 0 3 := by
  have e1 : gOpt.dijkstra 0 3 20 = .ok (some (10, [0, 3])) := by decide
  have e2 : gMiss.dijkstra 0 3 20 = .ok none := by decide
  refine ⟨?_, by decide, by decide, by decide, by decide, ?_, by decide⟩
  · rw [dijkstra_mono _ 0 3 20 fuel h (by simp [e1]), e1]
  · rw [dijkstra_mono _ 0 3 20 fuel h (by simp [e2]), e2]

theorem dijkstra_drops_equal_cost_entry_witness :
    20 ≤ 20 ∧
    (gOpt.dijkstra 0 3 20 = .ok (some (10, [0, 3])) ∧
    IsWalk gOpt [0, 2, 3] 0 3 ∧ walkCost gOpt [0, 2, 3] = some 2 ∧
    (∀ p ∈ gOpt.edges, 0 < p.2) ∧ (2 : Nat) < 10 ∧
    gMiss.dijkstra 0 3 20 = .ok none ∧ IsWalk gMiss [0, 2, 3] 0 3) :=
  ⟨by decide, dijkstra_drops_equal_cost_entry 20 (by decide)⟩

/-! ## Order facts for edge keys -/

theorem ekLt_irrefl (k : Edge) : ekLt k k = false := by
  simp [ekLt]

theorem ekLt_asymm {a b : Edge} (h : ekLt a b = true) : ekLt b a = false := by
  simp only [ekLt, Bool.or_eq_true, Bool.and_eq_true, decide_eq_true_eq] at h
  simp only [ekLt, Bool.or_eq_false_iff, Bool.and_eq_false_iff,
    decide_eq_false_iff_not]
  omega

theorem ekLt_trans {a b c : Edge} (h1 : ekLt a b = true) (h2 : ekLt b c = true) :
    ekLt a c = true := by
  simp only [ekLt, Bool.or_eq_true, Bool.and_eq_true, decide_eq_true_eq] at h1 h2 ⊢
  omega

theorem Edge.new_symm (a b : Nat) : Edge.new a b = Edge.new b a := by
  unfold Edge.new
  rcases Nat.lt_trichotomy a b with h | h | h
  · rw [if_pos (by omega), if_neg (by omega)]
  · simp [h]
  · rw [if_neg (by omega), if_pos (by omega)]

theorem Edge.new_touches (a b c : Nat) :
    (Edge.new a b).touches c = (decide (a = c) || decide (b = c)) := by
  unfold Edge.new Edge.touches
  split <;> simp [Bool.or_comm]

theorem sortedEdgeKeys_cons {a : Edge × E} {t : List (Edge × E)}
    (h : sortedEdgeKeys (a :: t) = true) :
    sortedEdgeKeys t = true ∧ ∀ p ∈ t, ekLt a.1 p.1 = true := by
  induction t generalizing a with
  | nil => exact ⟨rfl, by simp⟩
  | cons b t' ih =>
    rw [sortedEdgeKeys, Bool.and_eq_true] at h
    obtain ⟨hab, hbt⟩ := h
    obtain ⟨-, hball⟩ := ih hbt
    refine ⟨hbt, ?_⟩
    intro p hp
    rcases List.mem_cons.mp hp with hp | hp
    · rw [hp]; exact hab
    · exact ekLt_trans hab (hball p hp)

/-! ## Edge map lemmas -/

theorem emGet_some_mem {k : Edge} {v : E} :
    ∀ {l : List (Edge × E)}, emGet k l = some v → (k, v) ∈ l := by
  intro l
  induction l with
  | nil => intro h; cases h
  | cons a t ih =>
    intro h
    obtain ⟨k', v'⟩ := a
    rw [emGet] at h
    by_cases hk : k = k'
    · rw [if_pos hk] at h
      cases h
      exact hk ▸ List.mem_cons_self _ _
    · rw [if_neg hk] at h
      exact List.mem_cons_of_mem _ (ih h)

theorem emGet_emInsert_self (k : Edge) (w : E) :
    ∀ l : List (Edge × E), emGet k (emInsert k w l).1 = some w := by
  intro l
  induction l with
  | nil => simp [emInsert, emGet]
  | cons a t ih =>
    obtain ⟨k', v'⟩ := a
    rw [emInsert]
    by_cases h1 : ekLt k k' = true
    · rw [if_pos h1]
      simp [emGet]
    · rw [if_neg h1]
      by_cases h2 : k = k'
      · rw [if_pos h2]
        simp [emGet]
      · rw [if_neg h2]
        simp only [emGet, if_neg h2]
        exact ih

theorem emInsert_existing {k : Edge} {v : E} :
    ∀ {l : List (Edge × E)}, sortedEdgeKeys l = true → emGet k l = some v →
      ∀ w : E, (emInsert k w l).2 = some v ∧ (emInsert k w l).1.length = l.length ∧
        (v = w → (emInsert k w l).1 = l) := by
  intro l
  induction l with
  | nil => intro _ h; cases h
  | cons a t ih =>
    intro hs hget w
    obtain ⟨k', v'⟩ := a
    by_cases hk : k = k'
    · subst hk
      rw [emGet, if_pos rfl] at hget
      cases hget
      rw [emInsert, if_neg (by rw [ekLt_irrefl]; exact Bool.false_ne_true), if_pos rfl]
      refine ⟨rfl, rfl, ?_⟩
      intro hvw
      rw [← hvw]
    · rw [emGet, if_neg hk] at hget
      have hmem : (k, v) ∈ t := emGet_some_mem hget
      obtain ⟨hst, hall⟩ := sortedEdgeKeys_cons hs
      have hlt : ekLt k' k = true := hall (k, v) hmem
      have hnlt : ekLt k k' ≠ true := by rw [ekLt_asymm hlt]; exact Bool.false_ne_true
      rw [emInsert, if_neg hnlt, if_neg hk]
      obtain ⟨h1, h2, h3⟩ := ih hst hget w
      refine ⟨h1, by simpa using h2, ?_⟩
      intro hvw
      simp only []
      rw [h3 hvw]

theorem emGet_filter_key (Q : Edge → Bool) (k : Edge) :
    ∀ l : List (Edge × E), emGet k (l.filter (fun p => Q p.1)) =
      if Q k = true then emGet k l else none := by
  intro l
  induction l with
  | nil => simp [emGet]
  | cons a t ih =>
    obtain ⟨k', v'⟩ := a
    by_cases hq : Q k' = true
    · rw [List.filter_cons_of_pos (by simpa using hq)]
      by_cases hk : k = k'
      · subst hk
        simp [emGet, hq]
      · rw [emGet, if_neg hk, ih, emGet, if_neg hk]
    · rw [List.filter_cons_of_neg (by simpa using hq)]
      by_cases hk : k = k'
      · subst hk
        rw [ih, if_neg hq]
        rw [if_neg hq]
      · rw [ih, emGet, if_neg hk]

/-! ## Node map lemmas -/

theorem nmRemove_snd (k : Nat) :
    ∀ l : List (Nat × V), (nmRemove k l).2 = nmGet k l := by
  intro l
  induction l with
  | nil => rfl
  | cons a t ih =>
    obtain ⟨k', v'⟩ := a
    rw [nmRemove, nmGet]
    by_cases hk : k = k'
    · rw [if_pos hk, if_pos hk]
    · rw [if_neg hk, if_neg hk]
      exact ih

theorem nmGet_nmRemove_ne {j k : Nat} (hjk : j ≠ k) :
    ∀ l : List (Nat × V), nmGet j (nmRemove k l).1 = nmGet j l := by
  intro l
  induction l with
  | nil => rfl
  | cons a t ih =>
    obtain ⟨k', v'⟩ := a
    rw [nmRemove]
    by_cases hk : k = k'
    · rw [if_pos hk, nmGet, if_neg (by omega)]
    · rw [if_neg hk]
      rw [nmGet, nmGet]
      by_cases hj : j = k'
      · rw [if_pos hj, if_pos hj]
      · rw [if_neg hj, if_neg hj]
        exact ih

/-! ## Claim C6 -/

/-- Claim C6: the edge key is canonicalized, so `get_edge` is symmetric in
its endpoints; re-adding an existing edge with the same value leaves
`get_edge` and `num_edges` unchanged; re-adding it with a different value
updates `get_edge`, keeps `num_edges`, and returns the prior value. -/
theorem add_edge_overwrite_and_canonical {V E : Type} :
    (∀ (g : Graph V E) (a b : Nat), g.get_edge a b = g.get_edge b a) ∧
    (∀ (g : Graph V E) (a b : Nat) (v w : E), g.WF → g.get_edge a b = some v →
      ((g.add_edge a b v).1.get_edge a b = some v ∧
       (g.add_edge a b v).1.num_edges = g.num_edges ∧
       (g.add_edge a b w).2 = some v ∧
       (g.add_edge a b w).1.get_edge a b = some w ∧
       (g.add_edge a b w).1.num_edges = g.num_edges)) := by
  constructor
  · intro g a b
    rw [Graph.get_edge, Graph.get_edge, Edge.new_symm]
  · intro g a b v w hwf hget
    rw [Graph.get_edge] at hget
    have hs : sortedEdgeKeys g.edges = true := hwf.2.1
    have hv := emInsert_existing hs hget v
    have hw := emInsert_existing hs hget w
    have hsame : (emInsert (Edge.new a b) v g.edges).1 = g.edges := hv.2.2 rfl
    refine ⟨?_, ?_, ?_, ?_, ?_⟩
    · show emGet (Edge.new a b) (emInsert (Edge.new a b) v g.edges).1 = some v
      rw [hsame]
      exact hget
    · show (emInsert (Edge.new a b) v g.edges).1.length = g.edges.length
      rw [hsame]
    · exact hw.1
    · exact emGet_emInsert_self _ _ _
    · exact hw.2.1

theorem add_edge_overwrite_and_canonical_witness :
    (gDij : Graph Unit Nat).WF ∧ gDij.get_edge 2 3 = some 2 ∧
    ((gDij.add_edge 2 3 2).1.get_edge 2 3 = some 2 ∧
     (gDij.add_edge 2 3 2).1.num_edges = gDij.num_edges ∧
     (gDij.add_edge 2 3 6).2 = some 2 ∧
     (gDij.add_edge 2 3 6).1.get_edge 2 3 = some 6 ∧
     (gDij.add_edge 2 3 6).1.num_edges = gDij.num_edges) ∧
    gDij.get_edge 3 2 = gDij.get_edge 2 3 :=
  ⟨by decide, by decide,
    add_edge_overwrite_and_canonical.2 gDij 2 3 2 6 (by decide) (by decide),
    add_edge_overwrite_and_canonical.1 gDij 3 2⟩

/-! ## Claim C7 -/

/-- Claim C7: removing an existing node returns its value, empties exactly
the edges having the removed identifier as an endpoint, keeps every other
edge lookup intact, and leaves every other node identifier mapped as
before. -/
theorem remove_node_frame {V E : Type} :
    ∀ (g : Graph V E) (nid : Nat) (v : V), g.get_node nid = some v →
      ((g.remove_node nid).2 = some v ∧
       (∀ a b : Nat, a = nid ∨ b = nid → (g.remove_node nid).1.get_edge a b = none) ∧
       (∀ a b : Nat, a ≠ nid → b ≠ nid →
         (g.remove_node nid).1.get_edge a b = g.get_edge a b) ∧
       (∀ j : Nat, j ≠ nid → (g.remove_node nid).1.get_node j = g.get_node j)) := by
  intro g nid v hget
  refine ⟨?_, ?_, ?_, ?_⟩
  · show (nmRemove nid g.nodes).2 = some v
    rw [nmRemove_snd]
    exact hget
  · intro a b hab
    show emGet (Edge.new a b) (g.edges.filter (fun p => !(p.1.touches nid))) = none
    rw [emGet_filter_key (fun e => !(e.touches nid))]
    have ht : (Edge.new a b).touches nid = true := by
      rw [Edge.new_touches]
      rcases hab with h | h <;> simp [h]
    rw [if_neg (by simp [ht])]
  · intro a b ha hb
    show emGet (Edge.new a b) (g.edges.filter (fun p => !(p.1.touches nid))) =
      emGet (Edge.new a b) g.edges
    rw [emGet_filter_key (fun e => !(e.touches nid))]
    have ht : (Edge.new a b).touches nid = false := by
      rw [Edge.new_touches]
      simp [ha, hb]
    rw [if_pos (by simp [ht])]
  · intro j hj
    show nmGet j (nmRemove nid g.nodes).1 = nmGet j g.nodes
    exact nmGet_nmRemove_ne hj g.nodes

theorem remove_node_frame_witness :
    gDij.get_node 2 = some () ∧
    (gDij.remove_node 2).2 = some () ∧
    (gDij.remove_node 2).1.get_edge 2 3 = none ∧
    (gDij.remove_node 2).1.get_edge 1 2 = none ∧
    (gDij.remove_node 2).1.get_edge 0 1 = gDij.get_edge 0 1 ∧
    (gDij.remove_node 2).1.get_node 3 = gDij.get_node 3 := by
  have h := remove_node_frame gDij 2 () (by decide)
  exact ⟨by decide, h.1, h.2.1 2 3 (Or.inl rfl), h.2.1 1 2 (Or.inr rfl),
    h.2.2.1 0 1 (by decide) (by decide), h.2.2.2 3 (by decide)⟩

/-! ## Claim C9 -/

/-- Claim C9: removing an identifier absent from the node map returns
nothing yet still purges every edge touching that identifier, edges which
can exist because `add_edge` performs no endpoint validation; the removal
is not atomic in its `None` case. -/
theorem remove_absent_node_purges_edges {V E : Type} :
    (∀ (g : Graph V E) (nid : Nat), g.get_node nid = none →
      ((g.remove_node nid).2 = none ∧
       (∀ a b : Nat, a = nid ∨ b = nid → (g.remove_node nid).1.get_edge a b = none) ∧
       (∀ a b : Nat, a ≠ nid → b ≠ nid →
         (g.remove_node nid).1.get_edge a b = g.get_edge a b))) ∧
    (gHang.get_node 5 = none ∧ gHang.get_edge 0 5 = some 7 ∧
     (gHang.remove_node 5).2 = none ∧ (gHang.remove_node 5).1.get_edge 0 5 = none ∧
     gHang.num_edges = 1 ∧ (gHang.remove_node 5).1.num_edges = 0) := by
  constructor
  · intro g nid hget
    refine ⟨?_, ?_, ?_⟩
    · show (nmRemove nid g.nodes).2 = none
      rw [nmRemove_snd]
      exact hget
    · intro a b hab
      show emGet (Edge.new a b) (g.edges.filter (fun p => !(p.1.touches nid))) = none
      rw [emGet_filter_key (fun e => !(e.touches nid))]
      have ht : (Edge.new a b).touches nid = true := by
        rw [Edge.new_touches]
        rcases hab with h | h <;> simp [h]
      rw [if_neg (by simp [ht])]
    · intro a b ha hb
      show emGet (Edge.new a b) (g.edges.filter (fun p => !(p.1.touches nid))) =
        emGet (Edge.new a b) g.edges
      rw [emGet_filter_key (fun e => !(e.touches nid))]
      have ht : (Edge.new a b).touches nid = false := by
        rw [Edge.new_touches]
        simp [ha, hb]
      rw [if_pos (by simp [ht])]
  · exact ⟨by decide, by decide, by decide, by decide, by decide, by decide⟩

theorem remove_absent_node_purges_edges_witness :
    gHang.get_node 5 = none ∧
    ((gHang.remove_node 5).2 = none ∧
     (gHang.remove_node 5).1.get_edge 0 5 = none ∧
     (gHang.remove_node 5).1.get_edge 0 1 = gHang.get_edge 0 1) := by
  have h := remove_absent_node_purges_edges.1 gHang 5 (by decide)
  exact ⟨by decide, h.1, h.2.1 0 5 (Or.inr rfl), h.2.2 0 1 (by decide) (by decide)⟩

/-! ## Claim C10 -/

theorem astarScan_absent [LinearOrder C] (g : Graph V E) (h : V → E → C) (node : Nat) :
    ∀ (pre : List (Nat × E)) (y : Nat) (e : E) (post : List (Nat × E))
      (visited : List (Option Nat)) (heap : List (C × Nat)),
      (∀ q ∈ pre, (g.get_node q.1).isSome = true ∧ q.1 < visited.length) →
      g.get_node y = none →
      astarScan g h node (pre ++ (y, e) :: post) visited heap = .ok none := by
  intro pre
  induction pre with
  | nil =>
    intro y e post visited heap _ hy
    simp [astarScan, hy]
  | cons a t ih =>
    intro y e post visited heap hpre hy
    obtain ⟨z, e'⟩ := a
    have hz := hpre (z, e') (List.mem_cons_self _ _)
    obtain ⟨vz, hvz⟩ := Option.isSome_iff_exists.mp hz.1
    have hidx : z < visited.length := hz.2
    have hget : visited[z]? = some visited[z] := List.getElem?_eq_getElem hidx
    rw [List.cons_append, astarScan, hvz]
    cases hvz' : visited[z] with
    | some w =>
      rw [hget, hvz']
      exact ih y e post visited heap (fun q hq => hpre q (List.mem_cons_of_mem _ hq)) hy
    | none =>
      rw [hget, hvz']
      refine ih y e post _ _ ?_ hy
      intro q hq
      have := hpre q (List.mem_cons_of_mem _ hq)
      simpa [List.length_set] using this

theorem astarLoop_absent_neighbor {V E C : Type} [LinearOrder C] :
    ∀ (g : Graph V E) (h : V → E → C) (frm tgt fuel : Nat) (c : C) (u : Nat)
      (hrest : List (C × Nat)) (visited : List (Option Nat))
      (pre : List (Nat × E)) (y : Nat) (e : E) (post : List (Nat × E)),
      u ≠ tgt →
      g.neighbors u = pre ++ (y, e) :: post →
      (∀ q ∈ pre, (g.get_node q.1).isSome = true ∧ q.1 < visited.length) →
      g.get_node y = none →
      astarLoop g h frm tgt (fuel + 1) visited ((c, u) :: hrest) = .ok none := by
  intro g h frm tgt fuel c u hrest visited pre y e post hu hnb hpre hy
  rw [astarLoop, if_neg hu, hnb, astarScan_absent g h u pre y e post visited hrest hpre hy]

/-- Claim C10: whenever the neighbor scan of a dequeued node reaches a
neighbor identifier with no stored node value, `astar` aborts the whole
call with a normal `None`; concretely, on `gAst` the target 1 is joined to
the start 0 by an edge between two existing nodes, yet `astar 0 1` returns
`None` because node 0 also has the dangling neighbor 9. -/
theorem astar_bails_on_missing_node {V E C : Type} [LinearOrder C] :
    (∀ (g : Graph V E) (h : V → E → C) (frm tgt fuel : Nat) (c : C) (u : Nat)
       (hrest : List (C × Nat)) (visited : List (Option Nat))
       (pre : List (Nat × E)) (y : Nat) (e : E) (post : List (Nat × E)),
       u ≠ tgt →
       g.neighbors u = pre ++ (y, e) :: post →
       (∀ q ∈ pre, (g.get_node q.1).isSome = true ∧ q.1 < visited.length) →
       g.get_node y = none →
       astarLoop g h frm tgt (fuel + 1) visited ((c, u) :: hrest) = .ok none) ∧
    (gAst.get_node 0 = some () ∧ gAst.get_node 1 = some () ∧
     gAst.get_edge 0 1 = some 3 ∧ gAst.get_node 9 = none ∧ gAst.get_edge 0 9 = some 4 ∧
     ∀ fuel : Nat, gAst.astar 0 1 (fun _ e => e) (fuel + 1) = .ok none) := by
  constructor
  · exact astarLoop_absent_neighbor
  · refine ⟨by decide, by decide, by decide, by decide, by decide, ?_⟩
    intro fuel
    show astarLoop gAst (fun _ e => e) 0 1 (fuel + 1)
      (List.replicate gAst.num_nodes (none : Option Nat)) [((0 : Nat), 0)] = .ok none
    exact astarLoop_absent_neighbor gAst (fun _ e => e) 0 1 fuel 0 0 []
      (List.replicate gAst.num_nodes none) [(1, 3)] 9 4 [] (by decide) (by decide)
      (by decide) (by decide)

theorem astar_bails_on_missing_node_witness :
    gAst.astar 0 1 (fun _ e => e) 6 = .ok none ∧
    astarLoop gAst (fun _ e => e) 0 1 4 (List.replicate 2 (none : Option Nat))
      [((0 : Nat), 0)] = .ok none :=
  ⟨(@astar_bails_on_missing_node Unit Nat Nat _).2.2.2.2.2.2 5,
   (@astar_bails_on_missing_node Unit Nat Nat _).1 gAst (fun _ e => e) 0 1 3 0 0 []
     (List.replicate 2 none) [(1, 3)] 9 4 [] (by decide) (by decide) (by decide)
     (by decide)⟩

/-! ## Vector access lemmas -/

theorem getD_set_self {A : Type} {l : List A} {x : Nat} (b d : A) (hx : x < l.length) :
    (l.set x b).getD x d = b := by
  induction l generalizing x with
  | nil => cases hx
  | cons a t ih =>
    cases x with
    | zero => rfl
    | succ x' =>
      simp only [List.set, List.getD, List.getElem?_cons_succ] at *
      exact ih (Nat.lt_of_succ_lt_succ hx)

theorem getD_set_ne {A : Type} {l : List A} {x y : Nat} (b d : A) (hxy : x ≠ y) :
    (l.set x b).getD y d = l.getD y d := by
  induction l generalizing x y with
  | nil => cases x <;> rfl
  | cons a t ih =>
    cases x with
    | zero =>
      cases y with
      | zero => exact absurd rfl hxy
      | succ y' => rfl
    | succ x' =>
      cases y with
      | zero => rfl
      | succ y' =>
        simp only [List.set, List.getD, List.getElem?_cons_succ]
        exact ih (fun hc => hxy (by rw [hc]))

theorem getD_getElem {A : Type} {l : List A} {x : Nat} (d : A) (hx : x < l.length) :
    l.getD x d = l[x] := by
  rw [List.getD, List.get?_eq_getElem?, List.getElem?_eq_getElem hx]
  rfl

theorem getD_replicate {A : Type} {n x : Nat} (d : A) :
    (List.replicate n d).getD x d = d := by
  induction n generalizing x with
  | zero => cases x <;> rfl
  | succ n' ih =>
    cases x with
    | zero => rfl
    | succ x' => exact ih

theorem countFalse_replicate (n : Nat) : countFalse (List.replicate n false) = n := by
  induction n with
  | zero => rfl
  | succ n' ih =>
    simp_all [countFalse, List.replicate_succ, List.filter]

theorem countFalse_set {l : List Bool} {x : Nat} (hx : x < l.length)
    (hf : l.getD x false = false) : countFalse (l.set x true) + 1 = countFalse l := by
  induction l generalizing x with
  | nil => cases hx
  | cons a t ih =>
    cases x with
    | zero =>
      have : a = false := hf
      subst this
      simp [countFalse, List.filter]
    | succ x' =>
      have hx' : x' < t.length := Nat.lt_of_succ_lt_succ hx
      have hf' : t.getD x' false = false := hf
      cases a <;> simpa [countFalse, List.filter] using ih hx' hf'

/-! ## Adjacency and neighbors -/

theorem adjB_symm (g : Graph V E) (a b : Nat) : adjB g a b = adjB g b a := by
  unfold adjB
  congr 1
  funext p
  rw [Bool.or_comm]

theorem adjB_iff_mem {g : Graph V E} {a b : Nat} :
    adjB g a b = true ↔ ∃ p ∈ g.edges, (p.1.1 = a ∧ p.1.2 = b) ∨ (p.1.1 = b ∧ p.1.2 = a) := by
  unfold adjB
  rw [List.any_eq_true]
  constructor
  · rintro ⟨p, hp, hh⟩
    refine ⟨p, hp, ?_⟩
    simpa using hh
  · rintro ⟨p, hp, hh⟩
    refine ⟨p, hp, ?_⟩
    simpa using hh

theorem neighbors_mem_adjB {g : Graph V E} {x y : Nat} {e : E}
    (h : (y, e) ∈ g.neighbors x) : adjB g x y = true := by
  unfold Graph.neighbors at h
  obtain ⟨p, hp, hmap⟩ := List.mem_map.mp h
  have hpe : p ∈ g.edges ∧ p.1.touches x = true := by
    have := List.mem_filter.mp hp
    simpa using this
  rw [adjB_iff_mem]
  refine ⟨p, hpe.1, ?_⟩
  by_cases hxx : p.1.1 = x
  · rw [if_pos hxx] at hmap
    left
    exact ⟨hxx, (Prod.mk.inj hmap).1⟩
  · rw [if_neg hxx] at hmap
    have ht : p.1.1 = x ∨ p.1.2 = x := by
      have := hpe.2
      unfold Edge.touches at this
      simpa using this
    right
    refine ⟨(Prod.mk.inj hmap).1, ?_⟩
    rcases ht with h | h
    · exact absurd h hxx
    · exact h

theorem adjB_mem_neighbors {g : Graph V E} {x y : Nat} (h : adjB g x y = true) :
    ∃ e : E, (y, e) ∈ g.neighbors x := by
  rw [adjB_iff_mem] at h
  obtain ⟨p, hp, hor⟩ := h
  unfold Graph.neighbors
  rcases hor with ⟨h1, h2⟩ | ⟨h1, h2⟩
  · refine ⟨p.2, List.mem_map.mpr ⟨p, List.mem_filter.mpr ⟨hp, ?_⟩, ?_⟩⟩
    · simp [Edge.touches, h1]
    · rw [if_pos h1, h2]
  · by_cases hxx : p.1.1 = x
    · refine ⟨p.2, List.mem_map.mpr ⟨p, List.mem_filter.mpr ⟨hp, ?_⟩, ?_⟩⟩
      · simp [Edge.touches, hxx]
      · rw [if_pos hxx]
        have : y = p.1.2 := by omega
        rw [this]
    · refine ⟨p.2, List.mem_map.mpr ⟨p, List.mem_filter.mpr ⟨hp, ?_⟩, ?_⟩⟩
      · simp [Edge.touches, h2]
      · rw [if_neg hxx, h1]

theorem adjB_lt {g : Graph V E} (hd : g.Dense) {x y : Nat} (h : adjB g x y = true) :
    x < g.num_nodes ∧ y < g.num_nodes := by
  rw [adjB_iff_mem] at h
  obtain ⟨p, hp, hor⟩ := h
  have := hd.2 p hp
  unfold Graph.num_nodes
  rcases hor with ⟨h1, h2⟩ | ⟨h1, h2⟩ <;> omega

/-! ## Density pigeonhole: all identifiers below the count exist -/

theorem sortedNodeKeys_cons {a : Nat × V} {t : List (Nat × V)}
    (h : sortedNodeKeys (a :: t) = true) :
    sortedNodeKeys t = true ∧ ∀ p ∈ t, a.1 < p.1 := by
  induction t generalizing a with
  | nil => exact ⟨rfl, by simp⟩
  | cons b t' ih =>
    rw [sortedNodeKeys, Bool.and_eq_true, decide_eq_true_eq] at h
    obtain ⟨hab, hbt⟩ := h
    obtain ⟨-, hball⟩ := ih hbt
    refine ⟨hbt, ?_⟩
    intro p hp
    rcases List.mem_cons.mp hp with hp | hp
    · rw [hp]; exact hab
    · exact Nat.lt_trans hab (hball p hp)

theorem sortedNodeKeys_nodup {l : List (Nat × V)} (h : sortedNodeKeys l = true) :
    (l.map Prod.fst).Nodup := by
  induction l with
  | nil => exact List.nodup_nil
  | cons a t ih =>
    obtain ⟨ht, hall⟩ := sortedNodeKeys_cons h
    rw [List.map_cons, List.nodup_cons]
    refine ⟨?_, ih ht⟩
    intro hmem
    obtain ⟨p, hp, hfst⟩ := List.mem_map.mp hmem
    have := hall p hp
    omega

theorem mem_fst_nmGet_isSome {k : Nat} :
    ∀ {l : List (Nat × V)}, k ∈ l.map Prod.fst → (nmGet k l).isSome = true := by
  intro l
  induction l with
  | nil => intro h; cases h
  | cons a t ih =>
    intro h
    obtain ⟨k', v'⟩ := a
    rw [nmGet]
    by_cases hk : k = k'
    · rw [if_pos hk]; rfl
    · rw [if_neg hk]
      rcases List.mem_cons.mp h with h | h
      · exact absurd h hk
      · exact ih h

theorem dense_get_node {g : Graph V E} (hs : sortedNodeKeys g.nodes = true)
    (hd : g.Dense) : ∀ i, i < g.num_nodes → (g.get_node i).isSome = true := by
  intro i hi
  have hnd : (g.nodes.map Prod.fst).Nodup := sortedNodeKeys_nodup hs
  have hsub : (g.nodes.map Prod.fst).toFinset ⊆ Finset.range g.num_nodes := by
    intro x hx
    rw [List.mem_toFinset] at hx
    obtain ⟨p, hp, hfst⟩ := List.mem_map.mp hx
    rw [Finset.mem_range, ← hfst]
    exact hd.1 p hp
  have hcard : (Finset.range g.num_nodes).card ≤ (g.nodes.map Prod.fst).toFinset.card := by
    rw [List.toFinset_card_of_nodup hnd, Finset.card_range, List.length_map]
    exact Nat.le_refl _
  have heq := Finset.eq_of_subset_of_card_le hsub hcard
  have : i ∈ (g.nodes.map Prod.fst).toFinset := by
    rw [heq, Finset.mem_range]
    exact hi
  exact mem_fst_nmGet_isSome (List.mem_toFinset.mp this)

/-! ## Walks and reachability -/

theorem walkChain_cons₂ (g : Graph V E) (x y : Nat) (t : List Nat) :
    walkChain g (x :: y :: t) = (adjB g x y && walkChain g (y :: t)) := rfl

theorem walkChain_tail {g : Graph V E} {x : Nat} {rest : List Nat}
    (h : walkChain g (x :: rest) = true) : walkChain g rest = true := by
  cases rest with
  | nil => rfl
  | cons y t =>
    rw [walkChain_cons₂, Bool.and_eq_true] at h
    exact h.2

theorem walkChain_suffix {g : Graph V E} :
    ∀ (l₁ l₂ : List Nat), walkChain g (l₁ ++ l₂) = true → walkChain g l₂ = true := by
  intro l₁
  induction l₁ with
  | nil => intro l₂ h; exact h
  | cons x t ih =>
    intro l₂ h
    exact ih l₂ (walkChain_tail h)

theorem head?_eq {a x : Nat} {rest : List Nat} (h : (x :: rest).head? = some a) :
    a = x := by
  rw [List.head?_cons] at h
  injection h with h
  exact h.symm

theorem IsWalk.append_adj {g : Graph V E} {c : Nat} :
    ∀ (p : List Nat) (a b : Nat), IsWalk g p a b → adjB g b c = true →
      IsWalk g (p ++ [c]) a c := by
  intro p
  induction p with
  | nil => intro a b hw _; cases hw.1
  | cons x rest ih =>
    intro a b hw hadj
    have hax : a = x := head?_eq hw.1
    cases rest with
    | nil =>
      have hbx : b = x := by
        have h2 := hw.2.1
        rw [List.getLast?_singleton] at h2
        exact (Option.some.inj h2).symm
      refine ⟨by subst hax; exact rfl, rfl, ?_⟩
      have hch : walkChain g ([x] ++ [c]) = (adjB g x c && true) := rfl
      rw [hch, ← hbx, hadj]
      rfl
    | cons y t =>
      have hw' : IsWalk g (y :: t) y b := by
        refine ⟨rfl, ?_, walkChain_tail hw.2.2⟩
        have := hw.2.1
        rw [List.getLast?_cons_cons] at this
        exact this
      have hrec := ih y b hw' hadj
      subst hax
      refine ⟨rfl, ?_, ?_⟩
      · show (a :: ((y :: t) ++ [c])).getLast? = some c
        have hcc : (a :: ((y :: t) ++ [c])).getLast? = ((y :: t) ++ [c]).getLast? := by
          show (a :: y :: (t ++ [c])).getLast? = (y :: (t ++ [c])).getLast?
          rw [List.getLast?_cons_cons]
        rw [hcc]
        exact hrec.2.1
      · show walkChain g (a :: ((y :: t) ++ [c])) = true
        have : walkChain g (a :: ((y :: t) ++ [c])) =
            (adjB g a y && walkChain g ((y :: t) ++ [c])) := rfl
        rw [this, Bool.and_eq_true]
        have hxy : adjB g a y = true := by
          have h2 := hw.2.2
          rw [walkChain_cons₂, Bool.and_eq_true] at h2
          exact h2.1
        exact ⟨hxy, hrec.2.2⟩

theorem reach_iff_walk {g : Graph V E} {a b : Nat} :
    Reach g a b ↔ ∃ p, IsWalk g p a b := by
  constructor
  · intro h
    induction h with
    | refl => exact ⟨[a], rfl, rfl, rfl⟩
    | tail hab hbc ih =>
      obtain ⟨p, hp⟩ := ih
      exact ⟨p ++ [_], IsWalk.append_adj p _ _ hp hbc⟩
  · rintro ⟨p, hp⟩
    induction p generalizing a with
    | nil => cases hp.1
    | cons x rest ih =>
      have hax : a = x := head?_eq hp.1
      subst hax
      cases rest with
      | nil =>
        have hab : a = b := by
          have h2 := hp.2.1
          rw [List.getLast?_singleton] at h2
          exact Option.some.inj h2
        subst hab
        exact Relation.ReflTransGen.refl
      | cons y t =>
        have hw' : IsWalk g (y :: t) y b := by
          refine ⟨rfl, ?_, walkChain_tail hp.2.2⟩
          have := hp.2.1
          rw [List.getLast?_cons_cons] at this
          exact this
        have hxy : adjB g a y = true := by
          have h2 := hp.2.2
          rw [walkChain_cons₂, Bool.and_eq_true] at h2
          exact h2.1
        exact Relation.ReflTransGen.head hxy (ih hw')

theorem walk_avoid_aux {g : Graph V E} {a b : Nat} :
    ∀ (n : Nat) (p : List Nat), p.length ≤ n → IsWalk g p a b →
      ∃ q, IsWalk g q a b ∧ a ∉ q.tail := by
  intro n
  induction n with
  | zero =>
    intro p hl hw
    cases p with
    | nil => cases hw.1
    | cons x t => simp at hl
  | succ n' ih =>
    intro p hl hw
    by_cases hmem : a ∈ p.tail
    · cases hp : p with
      | nil => rw [hp] at hw; cases hw.1
      | cons x t =>
        rw [hp] at hmem hw hl
        have hmem' : a ∈ t := hmem
        obtain ⟨t₁, t₂, ht⟩ := List.append_of_mem hmem'
        have hsplit : x :: t = (x :: t₁) ++ (a :: t₂) := by
          rw [List.cons_append, ht]
        refine ih (a :: t₂) ?_ ⟨rfl, ?_, ?_⟩
        · have hlen : t.length = t₁.length + 1 + t₂.length := by
            rw [ht]
            simp
            omega
          simp only [List.length_cons] at hl ⊢
          omega
        · have h2 := hw.2.1
          rw [hsplit, List.getLast?_append] at h2
          have hz := List.getLast?_eq_getLast (a :: t₂) (by simp)
          rw [hz]
          exact h2
        · have := hw.2.2
          rw [hsplit] at this
          exact walkChain_suffix _ _ this
    · exact ⟨p, hw, hmem⟩

theorem reach_walk_avoid {g : Graph V E} {a b : Nat} (h : Reach g a b) :
    ∃ p, IsWalk g p a b ∧ a ∉ p.tail := by
  obtain ⟨p, hp⟩ := reach_iff_walk.mp h
  exact walk_avoid_aux p.length p (Nat.le_refl _) hp

/-! ## Traversal scan characterization -/

theorem visitScan_spec {E : Type} :
    ∀ (nbrs : List (Nat × E)) (visited : List Bool) (queue : List Nat),
      (∀ q ∈ nbrs, q.1 < visited.length) →
      ∃ (visited' : List Bool) (new : List Nat),
        visitScan nbrs visited queue = .ok (visited', queue ++ new) ∧
        visited'.length = visited.length ∧
        new.Nodup ∧
        (∀ y ∈ new, (∃ e : E, (y, e) ∈ nbrs) ∧ visited.getD y false = false) ∧
        (∀ y (e : E), (y, e) ∈ nbrs → visited'.getD y false = true) ∧
        (∀ x, visited'.getD x false = true ↔ (visited.getD x false = true ∨ x ∈ new)) ∧
        countFalse visited' + new.length = countFalse visited := by
  intro nbrs
  induction nbrs with
  | nil =>
    intro visited queue _
    refine ⟨visited, [], ?_, rfl, List.nodup_nil, by simp, by simp, by simp, by simp⟩
    rw [List.append_nil]
    rfl
  | cons a t ih =>
    intro visited queue hb
    obtain ⟨z, e⟩ := a
    have hz : z < visited.length := hb (z, e) (List.mem_cons_self _ _)
    have hvz : visited[z]? = some visited[z] := List.getElem?_eq_getElem hz
    have hgd : visited.getD z false = visited[z] := getD_getElem false hz
    cases hv : visited[z] with
    | true =>
      obtain ⟨v', new, hok, hlen, hnd, hnew, hall, hiff, hcnt⟩ :=
        ih visited queue (fun q hq => hb q (List.mem_cons_of_mem _ hq))
      refine ⟨v', new, ?_, hlen, hnd, ?_, ?_, hiff, hcnt⟩
      · rw [visitScan, hvz, hv]
        exact hok
      · intro y hy
        obtain ⟨⟨e', he'⟩, hvy⟩ := hnew y hy
        exact ⟨⟨e', List.mem_cons_of_mem _ he'⟩, hvy⟩
      · intro y e' hy
        rcases List.mem_cons.mp hy with hy | hy
        · have hyz : y = z := (Prod.mk.inj hy).1
          rw [hiff, hyz, hgd, hv]
          exact Or.inl rfl
        · exact hall y e' hy
    | false =>
      have hbs : ∀ q ∈ t, q.1 < (visited.set z true).length := by
        intro q hq
        rw [List.length_set]
        exact hb q (List.mem_cons_of_mem _ hq)
      obtain ⟨v', new', hok, hlen, hnd, hnew, hall, hiff, hcnt⟩ :=
        ih (visited.set z true) (queue ++ [z]) hbs
      have hznew : z ∉ new' := by
        intro hzin
        have := (hnew z hzin).2
        rw [getD_set_self true false hz] at this
        cases this
      refine ⟨v', z :: new', ?_, ?_, ?_, ?_, ?_, ?_, ?_⟩
      · rw [visitScan, hvz, hv, hok, List.append_assoc]
        rfl
      · rw [hlen, List.length_set]
      · rw [List.nodup_cons]
        exact ⟨hznew, hnd⟩
      · intro y hy
        rcases List.mem_cons.mp hy with hy | hy
        · subst hy
          exact ⟨⟨e, List.mem_cons_self _ _⟩, by rw [hgd, hv]⟩
        · obtain ⟨⟨e', he'⟩, hvy⟩ := hnew y hy
          have hyz : y ≠ z := by
            intro hc
            rw [hc, getD_set_self true false hz] at hvy
            cases hvy
          rw [getD_set_ne true false (fun hc => hyz hc.symm)] at hvy
          exact ⟨⟨e', List.mem_cons_of_mem _ he'⟩, hvy⟩
      · intro y e' hy
        rcases List.mem_cons.mp hy with hy | hy
        · have hyz : y = z := (Prod.mk.inj hy).1
          rw [hiff, hyz, getD_set_self true false hz]
          exact Or.inl rfl
        · exact hall y e' hy
      · intro x
        rw [hiff]
        by_cases hxz : x = z
        · subst hxz
          rw [getD_set_self true false hz]
          simp
        · rw [getD_set_ne true false (fun hc => hxz hc.symm)]
          constructor
          · rintro (h | h)
            · exact Or.inl h
            · exact Or.inr (List.mem_cons_of_mem _ h)
          · rintro (h | h)
            · exact Or.inl h
            · rcases List.mem_cons.mp h with h | h
              · exact absurd h hxz
              · exact Or.inr h
      · have hset : countFalse (visited.set z true) + 1 = countFalse visited :=
          countFalse_set hz (by rw [hgd, hv])
        rw [List.length_cons]
        omega

/-! ## The traversal loop explores exactly the reachable component -/

theorem popMode_spec (mode : SearchMode) {queue : List Nat} (h : queue ≠ []) :
    queue.Perm ((mode.next queue).1 :: (mode.next queue).2) := by
  cases mode with
  | BreadthFirst =>
    cases queue with
    | nil => exact absurd rfl h
    | cons x t => exact List.Perm.refl _
  | DepthFirst =>
    cases queue with
    | nil => exact absurd rfl h
    | cons x t =>
      have hne : x :: t ≠ [] := by simp
      have h1 : (x :: t).getLastD 0 = (x :: t).getLast hne := by
        rw [List.getLastD_eq_getLast?, List.getLast?_eq_getLast _ hne]
        rfl
      show (x :: t).Perm ((x :: t).getLastD 0 :: (x :: t).dropLast)
      rw [h1]
      have h3 : (x :: t).dropLast ++ [(x :: t).getLast hne] = x :: t :=
        List.dropLast_append_getLast hne
      have h4 : ((x :: t).dropLast ++ [(x :: t).getLast hne]).Perm
          ([(x :: t).getLast hne] ++ (x :: t).dropLast) := List.perm_append_comm
      rw [h3] at h4
      exact h4

theorem visitLoop_nil {V E : Type} (g : Graph V E) (mode : SearchMode)
    (fuel : Nat) (visited : List Bool) : visitLoop g mode fuel visited [] = .ok [] := by
  cases fuel <;> rfl

theorem visitLoop_cons {V E : Type} (g : Graph V E) (mode : SearchMode) (f : Nat)
    (visited : List Bool) (q0 : Nat) (qt : List Nat) :
    visitLoop g mode (f + 1) visited (q0 :: qt) =
      (match visitScan (g.neighbors (mode.next (q0 :: qt)).1) visited
          (mode.next (q0 :: qt)).2 with
       | Res.panicked => Res.panicked
       | Res.outOfFuel => Res.outOfFuel
       | Res.ok st =>
         match g.get_node (mode.next (q0 :: qt)).1 with
         | none => Res.ok []
         | some v =>
           match visitLoop g mode f st.1 st.2 with
           | Res.ok restY => Res.ok (((mode.next (q0 :: qt)).1, v) :: restY)
           | r => r) := rfl

theorem visitLoop_spec {V E : Type} (g : Graph V E) (mode : SearchMode) (r : Nat)
    (hs : sortedNodeKeys g.nodes = true) (hd : g.Dense) :
    ∀ (fuel : Nat) (visited : List Bool) (queue : List Nat),
      VisitInv g r visited queue →
      countFalse visited + queue.length ≤ fuel →
      ∃ Y : List (Nat × V),
        visitLoop g mode fuel visited queue = .ok Y ∧
        (Y.map Prod.fst).Nodup ∧
        (∀ q ∈ queue, q ∈ Y.map Prod.fst) ∧
        (∀ x ∈ Y.map Prod.fst, x ∈ queue ∨ visited.getD x false = false) ∧
        (∀ x ∈ Y.map Prod.fst, Reach g r x) ∧
        (∀ x ∈ Y.map Prod.fst, ∀ y, adjB g x y = true →
          y ∈ Y.map Prod.fst ∨ visited.getD y false = true) := by
  intro fuel
  induction fuel with
  | zero =>
    intro visited queue hinv hfuel
    have hq : queue = [] := by
      cases queue with
      | nil => rfl
      | cons a t =>
        rw [List.length_cons] at hfuel
        omega
    subst hq
    exact ⟨[], visitLoop_nil g mode 0 visited, by simp, by simp, by simp, by simp, by simp⟩
  | succ f ihf =>
    intro visited queue hinv hfuel
    obtain ⟨hlen0, hq0, hr0, hnd0, hcl0⟩ := hinv
    cases hqe : queue with
    | nil =>
      exact ⟨[], visitLoop_nil g mode _ visited, by simp, by simp [hqe], by simp,
        by simp, by simp⟩
    | cons q0 qt =>
      subst hqe
      have hqne : q0 :: qt ≠ [] := by simp
      have hperm := popMode_spec mode hqne
      set cur := (mode.next (q0 :: qt)).1 with hcur
      set rest := (mode.next (q0 :: qt)).2 with hrest
      have hcur_mem : cur ∈ q0 :: qt := hperm.mem_iff.mpr (List.mem_cons_self _ _)
      obtain ⟨hcur_lt, hcur_vis⟩ := hq0 cur hcur_mem
      have hnbrs : ∀ q ∈ g.neighbors cur, q.1 < visited.length := by
        intro q hq
        have : (q.1, q.2) ∈ g.neighbors cur := by rwa [Prod.mk.eta]
        have hadj := neighbors_mem_adjB this
        rw [hlen0]
        exact (adjB_lt hd hadj).2
      obtain ⟨v', new, hok, hlen, hnd, hnew, hall, hiff, hcnt⟩ :=
        visitScan_spec (g.neighbors cur) visited rest hnbrs
      obtain ⟨val, hval⟩ := Option.isSome_iff_exists.mp
        (dense_get_node hs hd cur hcur_lt)
      have hcnr : (cur :: rest).Nodup := hperm.nodup_iff.mp hnd0
      have hcur_rest : cur ∉ rest := (List.nodup_cons.mp hcnr).1
      have hrest_nd : rest.Nodup := (List.nodup_cons.mp hcnr).2
      have hmem_split : ∀ x, x ∈ q0 :: qt ↔ (x = cur ∨ x ∈ rest) := by
        intro x
        rw [hperm.mem_iff, List.mem_cons]
      have hnew_unvis : ∀ y ∈ new, visited.getD y false = false :=
        fun y hy => (hnew y hy).2
      have hnew_adj : ∀ y ∈ new, adjB g cur y = true := by
        intro y hy
        obtain ⟨⟨e, he⟩, -⟩ := hnew y hy
        exact neighbors_mem_adjB he
      have hinv' : VisitInv g r v' (rest ++ new) := by
        refine ⟨by rw [hlen, hlen0], ?_, ?_, ?_, ?_⟩
        · intro x hx
          rcases List.mem_append.mp hx with hx | hx
          · obtain ⟨h1, h2⟩ := hq0 x ((hmem_split x).mpr (Or.inr hx))
            exact ⟨h1, (hiff x).mpr (Or.inl h2)⟩
          · refine ⟨(adjB_lt hd (hnew_adj x hx)).2, ?_⟩
            exact (hiff x).mpr (Or.inr hx)
        · intro x hx
          rcases (hiff x).mp hx with hx | hx
          · exact hr0 x hx
          · exact Relation.ReflTransGen.tail (hr0 cur hcur_vis) (hnew_adj x hx)
        · rw [List.nodup_append]
          refine ⟨hrest_nd, hnd, ?_⟩
          intro x hx hx'
          have h1 := (hq0 x ((hmem_split x).mpr (Or.inr hx))).2
          have h2 := hnew_unvis x hx'
          rw [h1] at h2
          cases h2
        · intro x hvx hxq y hadj
          rcases (hiff x).mp hvx with hvis | hin
          · by_cases hxc : x = cur
            · subst hxc
              obtain ⟨e, he⟩ := adjB_mem_neighbors hadj
              exact hall y e he
            · have hxq' : x ∉ q0 :: qt := by
                rw [hmem_split]
                rintro (h | h)
                · exact hxc h
                · exact hxq (List.mem_append.mpr (Or.inl h))
              have := hcl0 x hvis hxq' y hadj
              exact (hiff y).mpr (Or.inl this)
          · exact absurd (List.mem_append.mpr (Or.inr hin)) hxq
      have hfuel' : countFalse v' + (rest ++ new).length ≤ f := by
        have hql : (q0 :: qt).length = rest.length + 1 := by
          rw [hperm.length_eq]
          rfl
        rw [List.length_append]
        rw [hql] at hfuel
        omega
      obtain ⟨Y', hok', hnd', hqs', hpops', hreach', hclos'⟩ := ihf v' (rest ++ new) hinv' hfuel'
      have hstep : visitLoop g mode (f + 1) visited (q0 :: qt) = .ok ((cur, val) :: Y') := by
        rw [visitLoop_cons, ← hcur, ← hrest, hok]
        simp only [hval, hok']
      have hnotY' : cur ∉ Y'.map Prod.fst := by
        intro hc
        rcases hpops' cur hc with hc' | hc'
        · rcases List.mem_append.mp hc' with hc' | hc'
          · exact hcur_rest hc'
          · have := hnew_unvis cur hc'
            rw [hcur_vis] at this
            cases this
        · have := (hiff cur).mpr (Or.inl hcur_vis)
          rw [hc'] at this
          cases this
      have hv'_to_vis : ∀ x, v'.getD x false = false → visited.getD x false = false := by
        intro x hx
        by_contra hc
        have : visited.getD x false = true := by
          cases hvx : visited.getD x false
          · exact absurd hvx hc
          · rfl
        rw [(hiff x).mpr (Or.inl this)] at hx
        cases hx
      refine ⟨(cur, val) :: Y', hstep, ?_, ?_, ?_, ?_, ?_⟩
      · rw [List.map_cons, List.nodup_cons]
        exact ⟨hnotY', hnd'⟩
      · intro q hq
        rcases (hmem_split q).mp hq with hq | hq
        · rw [hq, List.map_cons]
          exact List.mem_cons_self _ _
        · rw [List.map_cons]
          exact List.mem_cons_of_mem _ (hqs' q (List.mem_append.mpr (Or.inl hq)))
      · intro x hx
        rcases List.mem_cons.mp hx with hx | hx
        · rw [hx]
          exact Or.inl hcur_mem
        · rcases hpops' x hx with hx' | hx'
          · rcases List.mem_append.mp hx' with hx' | hx'
            · exact Or.inl ((hmem_split x).mpr (Or.inr hx'))
            · exact Or.inr (hnew_unvis x hx')
          · exact Or.inr (hv'_to_vis x hx')
      · intro x hx
        rcases List.mem_cons.mp hx with hx | hx
        · rw [hx]
          exact hr0 cur hcur_vis
        · exact hreach' x hx
      · intro x hx y hadj
        rcases List.mem_cons.mp hx with hx | hx
        · subst hx
          obtain ⟨e, he⟩ := adjB_mem_neighbors hadj
          have hy := hall y e he
          rcases (hiff y).mp hy with hy' | hy'
          · exact Or.inr hy'
          · exact Or.inl (List.mem_cons_of_mem _
              (hqs' y (List.mem_append.mpr (Or.inr hy'))))
        · rcases hclos' x hx y hadj with hy | hy
          · exact Or.inl (List.mem_cons_of_mem _ hy)
          · rcases (hiff y).mp hy with hy' | hy'
            · exact Or.inr hy'
            · exact Or.inl (List.mem_cons_of_mem _
                (hqs' y (List.mem_append.mpr (Or.inr hy'))))

/-! ## Claim C4 -/

/-- Claim C4 fails as stated: in `gSparse` every edge joins two existing
nodes and 0 is an existing node, yet fully consuming `visit 0` panics in
either mode, because the surviving identifier 2 is not below the node
count used to size the visited vector. -/
theorem visit_panics_on_surviving_id :
    (∀ p ∈ gSparse.edges, (gSparse.get_node p.1.1).isSome = true ∧
      (gSparse.get_node p.1.2).isSome = true) ∧
    gSparse.get_node 0 = some () ∧
    gSparse.visit 0 SearchMode.BreadthFirst (gSparse.num_nodes + 1) = .panicked ∧
    gSparse.visit 0 SearchMode.DepthFirst (gSparse.num_nodes + 1) = .panicked := by
  exact ⟨by decide, by decide, by decide, by decide⟩

/-- Claim C4 amended: provided every node identifier and edge endpoint is
below the node count (as holds whenever no node was removed), fully
consuming `visit from mode` yields each node at most once and the set of
yielded identifiers is exactly the set of nodes reachable from `from` by
following edges transitively, `from` included. -/
theorem visit_yields_reachable_set {V E : Type} (g : Graph V E) (mode : SearchMode)
    (frm fuel : Nat) (hs : g.WF) (hd : g.Dense) (hfrm : frm < g.num_nodes)
    (hfuel : g.num_nodes ≤ fuel) :
    ∃ Y : List (Nat × V), g.visit frm mode fuel = .ok Y ∧
      (Y.map Prod.fst).Nodup ∧
      (∀ x, x ∈ Y.map Prod.fst ↔ Reach g frm x) := by
  have hrep : (List.replicate g.num_nodes false).length = g.num_nodes :=
    List.length_replicate _ _
  have hfrm' : frm < (List.replicate g.num_nodes false).length := by rw [hrep]; exact hfrm
  set visited₀ := (List.replicate g.num_nodes false).set frm true with hv₀
  have hv0 : ∀ x, visited₀.getD x false = true ↔ x = frm := by
    intro x
    constructor
    · intro hx
      by_contra hc
      rw [hv₀, getD_set_ne true false (fun hh => hc hh.symm), getD_replicate] at hx
      cases hx
    · intro hx
      rw [hx, hv₀, getD_set_self true false hfrm']
  have hlen : visited₀.length = g.num_nodes := by
    rw [hv₀, List.length_set, hrep]
  have hinv : VisitInv g frm visited₀ [frm] := by
    refine ⟨hlen, ?_, ?_, List.nodup_singleton _, ?_⟩
    · intro x hx
      rcases List.mem_singleton.mp hx with rfl
      exact ⟨hfrm, (hv0 x).mpr rfl⟩
    · intro x hx
      rw [(hv0 x).mp hx]
      exact Relation.ReflTransGen.refl
    · intro x hx hxq
      exact absurd (List.mem_singleton.mpr ((hv0 x).mp hx)) hxq
  have hcf : countFalse visited₀ + 1 = g.num_nodes := by
    have h1 : countFalse visited₀ + 1 = countFalse (List.replicate g.num_nodes false) := by
      rw [hv₀]
      exact countFalse_set hfrm' (by rw [getD_replicate])
    rw [h1, countFalse_replicate]
  have hmeas : countFalse visited₀ + ([frm] : List Nat).length ≤ fuel := by
    rw [List.length_singleton]
    omega
  obtain ⟨Y, hok, hnd, hqs, hpops, hreach, hclos⟩ :=
    visitLoop_spec g mode frm hs.1 hd fuel visited₀ [frm] hinv hmeas
  refine ⟨Y, ?_, hnd, ?_⟩
  · rw [Graph.visit, if_pos hfrm]
    exact hok
  · intro x
    constructor
    · exact hreach x
    · intro hx
      induction hx with
      | refl => exact hqs frm (List.mem_singleton.mpr rfl)
      | tail hab hbc ih =>
        rcases hclos _ ih _ hbc with hy | hy
        · exact hy
        · rw [(hv0 _).mp hy]
          exact hqs frm (List.mem_singleton.mpr rfl)

theorem visit_yields_reachable_set_witness :
    (gDij : Graph Unit Nat).WF ∧ gDij.Dense ∧ 0 < gDij.num_nodes ∧ gDij.num_nodes ≤ 11 ∧
    ∃ Y : List (Nat × Unit), gDij.visit 0 SearchMode.BreadthFirst 11 = .ok Y ∧
      (Y.map Prod.fst).Nodup ∧
      (∀ x, x ∈ Y.map Prod.fst ↔ Reach gDij 0 x) :=
  ⟨by decide, by decide, by decide, by decide,
    visit_yields_reachable_set gDij SearchMode.BreadthFirst 0 11 (by decide) (by decide)
      (by decide) (by decide)⟩

/-! ## Back-pointer scan characterization -/

theorem countNone_replicate (n : Nat) : countNone (List.replicate n none) = n := by
  induction n with
  | zero => rfl
  | succ n' ih => simp_all [countNone, List.replicate_succ, List.filter]

theorem countNone_set {l : List (Option Nat)} {x : Nat} (p : Nat) (hx : x < l.length)
    (hf : l.getD x none = none) : countNone (l.set x (some p)) + 1 = countNone l := by
  induction l generalizing x with
  | nil => cases hx
  | cons a t ih =>
    cases x with
    | zero =>
      have : a = none := hf
      subst this
      simp [countNone, List.filter]
    | succ x' =>
      have hx' : x' < t.length := Nat.lt_of_succ_lt_succ hx
      have hf' : t.getD x' none = none := hf
      cases a with
      | none => simpa [countNone, List.filter] using ih hx' hf'
      | some q => simpa [countNone, List.filter] using ih hx' hf'

theorem searchScan_spec {E : Type} (cur : Nat) :
    ∀ (nbrs : List (Nat × E)) (cf : List (Option Nat)) (queue : List Nat),
      (∀ q ∈ nbrs, q.1 < cf.length) →
      ∃ (cf' : List (Option Nat)) (new : List Nat),
        searchScan cur nbrs cf queue = .ok (cf', queue ++ new) ∧
        cf'.length = cf.length ∧
        new.Nodup ∧
        (∀ y ∈ new, (∃ e : E, (y, e) ∈ nbrs) ∧ cf.getD y none = none) ∧
        (∀ y (e : E), (y, e) ∈ nbrs → (cf'.getD y none).isSome = true) ∧
        (∀ x, cf'.getD x none = if x ∈ new then some cur else cf.getD x none) ∧
        countNone cf' + new.length = countNone cf := by
  intro nbrs
  induction nbrs with
  | nil =>
    intro cf queue _
    refine ⟨cf, [], ?_, rfl, List.nodup_nil, by simp, by simp, ?_, by simp⟩
    · rw [List.append_nil]
      rfl
    · intro x
      rw [if_neg (by simp)]
  | cons a t ih =>
    intro cf queue hb
    obtain ⟨z, e⟩ := a
    have hz : z < cf.length := hb (z, e) (List.mem_cons_self _ _)
    have hvz : cf[z]? = some cf[z] := List.getElem?_eq_getElem hz
    have hgd : cf.getD z none = cf[z] := getD_getElem none hz
    cases hv : cf[z] with
    | some w =>
      obtain ⟨cf', new, hok, hlen, hnd, hnew, hall, hchar, hcnt⟩ :=
        ih cf queue (fun q hq => hb q (List.mem_cons_of_mem _ hq))
      refine ⟨cf', new, ?_, hlen, hnd, ?_, ?_, hchar, hcnt⟩
      · rw [searchScan, hvz, hv]
        exact hok
      · intro y hy
        obtain ⟨⟨e', he'⟩, hvy⟩ := hnew y hy
        exact ⟨⟨e', List.mem_cons_of_mem _ he'⟩, hvy⟩
      · intro y e' hy
        rcases List.mem_cons.mp hy with hy | hy
        · have hyz : y = z := (Prod.mk.inj hy).1
          rw [hchar, hyz]
          by_cases hyn : z ∈ new
          · rw [if_pos hyn]
            rfl
          · rw [if_neg hyn, hgd, hv]
            rfl
        · exact hall y e' hy
    | none =>
      have hbs : ∀ q ∈ t, q.1 < (cf.set z (some cur)).length := by
        intro q hq
        rw [List.length_set]
        exact hb q (List.mem_cons_of_mem _ hq)
      obtain ⟨cf', new', hok, hlen, hnd, hnew, hall, hchar, hcnt⟩ :=
        ih (cf.set z (some cur)) (queue ++ [z]) hbs
      have hznew : z ∉ new' := by
        intro hzin
        have := (hnew z hzin).2
        rw [getD_set_self (some cur) none hz] at this
        cases this
      refine ⟨cf', z :: new', ?_, ?_, ?_, ?_, ?_, ?_, ?_⟩
      · rw [searchScan, hvz, hv, hok, List.append_assoc]
        rfl
      · rw [hlen, List.length_set]
      · rw [List.nodup_cons]
        exact ⟨hznew, hnd⟩
      · intro y hy
        rcases List.mem_cons.mp hy with hy | hy
        · subst hy
          exact ⟨⟨e, List.mem_cons_self _ _⟩, by rw [hgd, hv]⟩
        · obtain ⟨⟨e', he'⟩, hvy⟩ := hnew y hy
          have hyz : y ≠ z := by
            intro hc
            rw [hc, getD_set_self (some cur) none hz] at hvy
            cases hvy
          rw [getD_set_ne (some cur) none (fun hc => hyz hc.symm)] at hvy
          exact ⟨⟨e', List.mem_cons_of_mem _ he'⟩, hvy⟩
      · intro y e' hy
        rcases List.mem_cons.mp hy with hy | hy
        · have hyz : y = z := (Prod.mk.inj hy).1
          rw [hchar, hyz]
          by_cases hyn : z ∈ new'
          · rw [if_pos hyn]
            rfl
          · rw [if_neg hyn, getD_set_self (some cur) none hz]
            rfl
        · exact hall y e' hy
      · intro x
        rw [hchar]
        by_cases hxz : x = z
        · subst hxz
          by_cases hxn : x ∈ new'
          · exact absurd hxn hznew
          · rw [if_neg hxn, if_pos (List.mem_cons_self _ _),
              getD_set_self (some cur) none hz]
        · by_cases hxn : x ∈ new'
          · rw [if_pos hxn, if_pos (List.mem_cons_of_mem _ hxn)]
          · rw [if_neg hxn, if_neg (by
              intro hc
              rcases List.mem_cons.mp hc with hc | hc
              · exact hxz hc
              · exact hxn hc),
              getD_set_ne (some cur) none (fun hc => hxz hc.symm)]
      · have hset : countNone (cf.set z (some cur)) + 1 = countNone cf :=
          countNone_set cur hz (by rw [hgd, hv])
        rw [List.length_cons]
        omega

/-! ## Search exhaustion on unreachable targets -/

theorem searchLoop_nil {V E : Type} (g : Graph V E) (frm tgt : Nat) (mode : SearchMode)
    (fuel : Nat) (cf : List (Option Nat)) :
    searchLoop g frm tgt mode fuel cf [] = .ok none := by
  cases fuel <;> rfl

theorem searchLoop_cons {V E : Type} (g : Graph V E) (frm tgt : Nat) (mode : SearchMode)
    (f : Nat) (cf : List (Option Nat)) (q0 : Nat) (qt : List Nat) :
    searchLoop g frm tgt mode (f + 1) cf (q0 :: qt) =
      (if (mode.next (q0 :: qt)).1 = tgt then
        match rebuildS cf frm (cf.length + 2) [(mode.next (q0 :: qt)).1] with
        | Res.ok path => Res.ok (some path)
        | Res.panicked => Res.panicked
        | Res.outOfFuel => Res.outOfFuel
      else
        match searchScan (mode.next (q0 :: qt)).1
            (g.neighbors (mode.next (q0 :: qt)).1) cf (mode.next (q0 :: qt)).2 with
        | Res.panicked => Res.panicked
        | Res.outOfFuel => Res.outOfFuel
        | Res.ok st => searchLoop g frm tgt mode f st.1 st.2) := rfl

theorem searchLoop_unreachable {V E : Type} (g : Graph V E) (frm tgt : Nat)
    (mode : SearchMode) (hd : g.Dense) (hur : ¬ Reach g frm tgt) :
    ∀ (fuel : Nat) (cf : List (Option Nat)) (queue : List Nat),
      cf.length = g.num_nodes →
      (∀ x ∈ queue, Reach g frm x) →
      countNone cf + queue.length ≤ fuel →
      searchLoop g frm tgt mode fuel cf queue = .ok none := by
  intro fuel
  induction fuel with
  | zero =>
    intro cf queue hlen hq hfuel
    cases queue with
    | nil => exact searchLoop_nil g frm tgt mode 0 cf
    | cons a t =>
      rw [List.length_cons] at hfuel
      omega
  | succ f ihf =>
    intro cf queue hlen hq hfuel
    cases queue with
    | nil => exact searchLoop_nil g frm tgt mode _ cf
    | cons q0 qt =>
      have hqne : q0 :: qt ≠ [] := by simp
      have hperm := popMode_spec mode hqne
      set cur := (mode.next (q0 :: qt)).1 with hcur
      set rest := (mode.next (q0 :: qt)).2 with hrest
      have hcur_mem : cur ∈ q0 :: qt := hperm.mem_iff.mpr (List.mem_cons_self _ _)
      have hcur_r : Reach g frm cur := hq cur hcur_mem
      have hct : cur ≠ tgt := by
        intro hc
        exact hur (hc ▸ hcur_r)
      have hnbrs : ∀ q ∈ g.neighbors cur, q.1 < cf.length := by
        intro q hq'
        have : (q.1, q.2) ∈ g.neighbors cur := by rwa [Prod.mk.eta]
        rw [hlen]
        exact (adjB_lt hd (neighbors_mem_adjB this)).2
      obtain ⟨cf', new, hok, hlen', hnd, hnew, hall, hchar, hcnt⟩ :=
        searchScan_spec cur (g.neighbors cur) cf rest hnbrs
      rw [searchLoop_cons, ← hcur, ← hrest, if_neg hct, hok]
      refine ihf cf' (rest ++ new) (by rw [hlen', hlen]) ?_ ?_
      · intro x hx
        rcases List.mem_append.mp hx with hx | hx
        · exact hq x (hperm.mem_iff.mpr (List.mem_cons_of_mem _ hx))
        · obtain ⟨⟨e, he⟩, -⟩ := hnew x hx
          exact Relation.ReflTransGen.tail hcur_r (neighbors_mem_adjB he)
      · have hql : (q0 :: qt).length = rest.length + 1 := by
          rw [hperm.length_eq]
          rfl
        rw [List.length_append]
        rw [hql] at hfuel
        omega

/-! ## Astar exhaustion on unreachable targets -/

theorem heapInsert_mem {C : Type} [LinearOrder C] {c₀ : C} {x₀ : Nat} :
    ∀ {l : List (C × Nat)} {p : C × Nat}, p ∈ heapInsert c₀ x₀ l → p ∈ l ∨ p = (c₀, x₀) := by
  intro l
  induction l with
  | nil =>
    intro p hp
    rcases List.mem_singleton.mp hp with rfl
    exact Or.inr rfl
  | cons a t ih =>
    intro p hp
    obtain ⟨c', y⟩ := a
    rw [heapInsert] at hp
    by_cases h1 : c₀ < c'
    · rw [if_pos h1] at hp
      rcases List.mem_cons.mp hp with hp | hp
      · exact Or.inr hp
      · exact Or.inl hp
    · rw [if_neg h1] at hp
      by_cases h2 : c₀ = c'
      · rw [if_pos h2] at hp
        exact Or.inl hp
      · rw [if_neg h2] at hp
        rcases List.mem_cons.mp hp with hp | hp
        · exact Or.inl (hp ▸ List.mem_cons_self _ _)
        · rcases ih hp with hp' | hp'
          · exact Or.inl (List.mem_cons_of_mem _ hp')
          · exact Or.inr hp'

theorem heapInsert_length {C : Type} [LinearOrder C] (c₀ : C) (x₀ : Nat) :
    ∀ l : List (C × Nat), (heapInsert c₀ x₀ l).length ≤ l.length + 1 := by
  intro l
  induction l with
  | nil => exact Nat.le_refl _
  | cons a t ih =>
    obtain ⟨c', y⟩ := a
    rw [heapInsert]
    by_cases h1 : c₀ < c'
    · rw [if_pos h1]
      exact Nat.le_refl _
    · rw [if_neg h1]
      by_cases h2 : c₀ = c'
      · rw [if_pos h2]
        simp
      · rw [if_neg h2]
        rw [List.length_cons, List.length_cons]
        omega

theorem astarScan_spec {V E C : Type} [LinearOrder C] (g : Graph V E) (h : V → E → C)
    (node : Nat) :
    ∀ (nbrs : List (Nat × E)) (visited : List (Option Nat)) (heap : List (C × Nat)),
      (∀ q ∈ nbrs, q.1 < visited.length) →
      astarScan g h node nbrs visited heap = .ok none ∨
      ∃ (visited' : List (Option Nat)) (heap' : List (C × Nat)),
        astarScan g h node nbrs visited heap = .ok (some (visited', heap')) ∧
        visited'.length = visited.length ∧
        (∀ p ∈ heap', p ∈ heap ∨ ∃ e : E, (p.2, e) ∈ nbrs) ∧
        countNone visited' + heap'.length ≤ countNone visited + heap.length := by
  intro nbrs
  induction nbrs with
  | nil =>
    intro visited heap _
    exact Or.inr ⟨visited, heap, rfl, rfl, fun p hp => Or.inl hp, Nat.le_refl _⟩
  | cons a t ih =>
    intro visited heap hb
    obtain ⟨z, e⟩ := a
    have hz : z < visited.length := hb (z, e) (List.mem_cons_self _ _)
    have hvz : visited[z]? = some visited[z] := List.getElem?_eq_getElem hz
    have hgd : visited.getD z none = visited[z] := getD_getElem none hz
    cases hnode : g.get_node z with
    | none =>
      left
      rw [astarScan, hnode]
    | some nv =>
      cases hv : visited[z] with
      | some w =>
        rcases ih visited heap (fun q hq => hb q (List.mem_cons_of_mem _ hq)) with hl | hr
        · left
          rw [astarScan, hnode, hvz, hv]
          exact hl
        · obtain ⟨v', h', hok, hlen, hmem, hcnt⟩ := hr
          right
          refine ⟨v', h', ?_, hlen, ?_, hcnt⟩
          · rw [astarScan, hnode, hvz, hv]
            exact hok
          · intro p hp
            rcases hmem p hp with hp' | ⟨e', he'⟩
            · exact Or.inl hp'
            · exact Or.inr ⟨e', List.mem_cons_of_mem _ he'⟩
      | none =>
        have hbs : ∀ q ∈ t, q.1 < (visited.set z (some node)).length := by
          intro q hq
          rw [List.length_set]
          exact hb q (List.mem_cons_of_mem _ hq)
        rcases ih (visited.set z (some node)) (heapInsert (h nv e) z heap) hbs with hl | hr
        · left
          rw [astarScan, hnode, hvz, hv]
          exact hl
        · obtain ⟨v', h', hok, hlen, hmem, hcnt⟩ := hr
          right
          refine ⟨v', h', ?_, ?_, ?_, ?_⟩
          · rw [astarScan, hnode, hvz, hv]
            exact hok
          · rw [hlen, List.length_set]
          · intro p hp
            rcases hmem p hp with hp' | ⟨e', he'⟩
            · rcases heapInsert_mem hp' with hp'' | hp''
              · exact Or.inl hp''
              · refine Or.inr ⟨e, ?_⟩
                rw [hp'']
                exact List.mem_cons_self _ _
            · exact Or.inr ⟨e', List.mem_cons_of_mem _ he'⟩
          · have hset : countNone (visited.set z (some node)) + 1 = countNone visited :=
              countNone_set node hz (by rw [hgd, hv])
            have hhl := heapInsert_length (h nv e) z heap
            rw [List.length_set] at hlen
            omega

theorem astarLoop_nil {V E C : Type} [LinearOrder C] (g : Graph V E) (h : V → E → C)
    (frm tgt fuel : Nat) (visited : List (Option Nat)) :
    astarLoop g h frm tgt fuel visited [] = .ok none := by
  cases fuel <;> rfl

theorem astarLoop_cons {V E C : Type} [LinearOrder C] (g : Graph V E) (h : V → E → C)
    (frm tgt f : Nat) (visited : List (Option Nat)) (c : C) (node : Nat)
    (hrest : List (C × Nat)) :
    astarLoop g h frm tgt (f + 1) visited ((c, node) :: hrest) =
      (if node = tgt then
        match rebuildS visited frm (visited.length + 2) [node] with
        | Res.ok path => Res.ok (some path)
        | Res.panicked => Res.panicked
        | Res.outOfFuel => Res.outOfFuel
      else
        match astarScan g h node (g.neighbors node) visited hrest with
        | Res.panicked => Res.panicked
        | Res.outOfFuel => Res.outOfFuel
        | Res.ok none => Res.ok none
        | Res.ok (some st) => astarLoop g h frm tgt f st.1 st.2) := rfl

theorem astarLoop_unreachable {V E C : Type} [LinearOrder C] (g : Graph V E)
    (h : V → E → C) (frm tgt : Nat) (hd : g.Dense) (hur : ¬ Reach g frm tgt) :
    ∀ (fuel : Nat) (visited : List (Option Nat)) (heap : List (C × Nat)),
      visited.length = g.num_nodes →
      (∀ p ∈ heap, Reach g frm p.2) →
      countNone visited + heap.length ≤ fuel →
      astarLoop g h frm tgt fuel visited heap = .ok none := by
  intro fuel
  induction fuel with
  | zero =>
    intro visited heap hlen hq hfuel
    cases heap with
    | nil => exact astarLoop_nil g h frm tgt 0 visited
    | cons a t =>
      rw [List.length_cons] at hfuel
      omega
  | succ f ihf =>
    intro visited heap hlen hq hfuel
    cases heap with
    | nil => exact astarLoop_nil g h frm tgt _ visited
    | cons a hrest =>
      obtain ⟨c, node⟩ := a
      have hnode_r : Reach g frm node := hq (c, node) (List.mem_cons_self _ _)
      have hct : node ≠ tgt := by
        intro hc
        exact hur (hc ▸ hnode_r)
      have hnbrs : ∀ q ∈ g.neighbors node, q.1 < visited.length := by
        intro q hq'
        have : (q.1, q.2) ∈ g.neighbors node := by rwa [Prod.mk.eta]
        rw [hlen]
        exact (adjB_lt hd (neighbors_mem_adjB this)).2
      rw [astarLoop_cons, if_neg hct]
      rcases astarScan_spec g h node (g.neighbors node) visited hrest hnbrs with hl | hr
      · rw [hl]
      · obtain ⟨v', h', hok, hlen', hmem, hcnt⟩ := hr
        rw [hok]
        refine ihf v' h' (by rw [hlen', hlen]) ?_ ?_
        · intro p hp
          rcases hmem p hp with hp' | ⟨e', he'⟩
          · exact hq p (List.mem_cons_of_mem _ hp')
          · exact Relation.ReflTransGen.tail hnode_r (neighbors_mem_adjB he')
        · rw [List.length_cons] at hfuel
          omega

/-! ## Dijkstra never panics nor returns a path when the target is unreachable -/

theorem dijkstraScan_safe {C : Type} [LinearOrder C] [Add C] (node : Nat) (cost : C) :
    ∀ (nbrs : List (Nat × C)) (weights : List (Option (C × Nat))) (heap : List (C × Nat)),
      (∀ q ∈ nbrs, q.1 < weights.length) →
      ∃ (w' : List (Option (C × Nat))) (h' : List (C × Nat)),
        dijkstraScan node cost nbrs weights heap = .ok (w', h') ∧
        w'.length = weights.length ∧
        (∀ p ∈ h', p ∈ heap ∨ ∃ e : C, (p.2, e) ∈ nbrs) := by
  intro nbrs
  induction nbrs with
  | nil =>
    intro weights heap _
    exact ⟨weights, heap, rfl, rfl, fun p hp => Or.inl hp⟩
  | cons a t ih =>
    intro weights heap hb
    obtain ⟨z, e⟩ := a
    have hz : z < weights.length := hb (z, e) (List.mem_cons_self _ _)
    have hvz : weights[z]? = some weights[z] := List.getElem?_eq_getElem hz
    have hlift : ∀ (w' : List (Option (C × Nat))) (h' : List (C × Nat))
        (heap₀ : List (C × Nat)),
        (∀ p ∈ h', p ∈ heapInsert (cost + e) z heap₀ ∨ ∃ e' : C, (p.2, e') ∈ t) →
        ∀ p ∈ h', p ∈ heap₀ ∨ ∃ e' : C, (p.2, e') ∈ (z, e) :: t := by
      intro w' h' heap₀ hmem p hp
      rcases hmem p hp with hp' | ⟨e', he'⟩
      · rcases heapInsert_mem hp' with hp'' | hp''
        · exact Or.inl hp''
        · refine Or.inr ⟨e, ?_⟩
          rw [hp'']
          exact List.mem_cons_self _ _
      · exact Or.inr ⟨e', List.mem_cons_of_mem _ he'⟩
    have hbset : ∀ q ∈ t, q.1 < (weights.set z (some (cost + e, node))).length := by
      intro q hq
      rw [List.length_set]
      exact hb q (List.mem_cons_of_mem _ hq)
    cases hv : weights[z] with
    | some pr =>
      by_cases hcmp : pr.1 < cost + e
      · obtain ⟨w', h', hok, hlen, hmem⟩ :=
          ih weights heap (fun q hq => hb q (List.mem_cons_of_mem _ hq))
        refine ⟨w', h', ?_, hlen, ?_⟩
        · rw [dijkstraScan, hvz, hv]
          show (if pr.1 < cost + e then dijkstraScan node cost t weights heap
            else dijkstraScan node cost t (weights.set z (some (cost + e, node)))
              (heapInsert (cost + e) z heap)) = Res.ok (w', h')
          rw [if_pos hcmp]
          exact hok
        · intro p hp
          rcases hmem p hp with hp' | ⟨e', he'⟩
          · exact Or.inl hp'
          · exact Or.inr ⟨e', List.mem_cons_of_mem _ he'⟩
      · obtain ⟨w', h', hok, hlen, hmem⟩ :=
          ih (weights.set z (some (cost + e, node))) (heapInsert (cost + e) z heap) hbset
        refine ⟨w', h', ?_, by rw [hlen, List.length_set], hlift w' h' heap hmem⟩
        rw [dijkstraScan, hvz, hv]
        show (if pr.1 < cost + e then dijkstraScan node cost t weights heap
          else dijkstraScan node cost t (weights.set z (some (cost + e, node)))
            (heapInsert (cost + e) z heap)) = Res.ok (w', h')
        rw [if_neg hcmp]
        exact hok
    | none =>
      obtain ⟨w', h', hok, hlen, hmem⟩ :=
        ih (weights.set z (some (cost + e, node))) (heapInsert (cost + e) z heap) hbset
      refine ⟨w', h', ?_, by rw [hlen, List.length_set], hlift w' h' heap hmem⟩
      rw [dijkstraScan, hvz, hv]
      exact hok

theorem dijkstraLoop_cons {V C : Type} [LinearOrder C] [Add C] (g : Graph V C)
    (frm tgt f : Nat) (weights : List (Option (C × Nat))) (cost : C) (node : Nat)
    (hrest : List (C × Nat)) :
    dijkstraLoop g frm tgt (f + 1) weights ((cost, node) :: hrest) =
      (if node = tgt then
        match rebuildS (weights.map (fun o => o.map Prod.snd)) frm
            (weights.length + 2) [node] with
        | Res.ok path => Res.ok (some (cost, path))
        | Res.panicked => Res.panicked
        | Res.outOfFuel => Res.outOfFuel
      else
        match dijkstraScan node cost (g.neighbors node) weights hrest with
        | Res.panicked => Res.panicked
        | Res.outOfFuel => Res.outOfFuel
        | Res.ok st => dijkstraLoop g frm tgt f st.1 st.2) := rfl

theorem dijkstraLoop_safe {V C : Type} [LinearOrder C] [Add C] (g : Graph V C)
    (frm tgt : Nat) (hd : g.Dense) (hur : ¬ Reach g frm tgt) :
    ∀ (fuel : Nat) (weights : List (Option (C × Nat))) (heap : List (C × Nat)),
      weights.length = g.num_nodes →
      (∀ p ∈ heap, Reach g frm p.2) →
      dijkstraLoop g frm tgt fuel weights heap = .outOfFuel ∨
      dijkstraLoop g frm tgt fuel weights heap = .ok none := by
  intro fuel
  induction fuel with
  | zero =>
    intro weights heap hlen hq
    cases heap with
    | nil => exact Or.inr (dijkstraLoop_nil g frm tgt 0 weights)
    | cons a t => exact Or.inl rfl
  | succ f ihf =>
    intro weights heap hlen hq
    cases heap with
    | nil => exact Or.inr (dijkstraLoop_nil g frm tgt _ weights)
    | cons a hrest =>
      obtain ⟨cost, node⟩ := a
      have hnode_r : Reach g frm node := hq (cost, node) (List.mem_cons_self _ _)
      have hct : node ≠ tgt := by
        intro hc
        exact hur (hc ▸ hnode_r)
      have hnbrs : ∀ q ∈ g.neighbors node, q.1 < weights.length := by
        intro q hq'
        have : (q.1, q.2) ∈ g.neighbors node := by rwa [Prod.mk.eta]
        rw [hlen]
        exact (adjB_lt hd (neighbors_mem_adjB this)).2
      obtain ⟨w', h', hok, hlen', hmem⟩ :=
        dijkstraScan_safe node cost (g.neighbors node) weights hrest hnbrs
      rw [dijkstraLoop_cons, if_neg hct, hok]
      refine ihf w' h' (by rw [hlen', hlen]) ?_
      intro p hp
      rcases hmem p hp with hp' | ⟨e', he'⟩
      · exact hq p (List.mem_cons_of_mem _ hp')
      · exact Relation.ReflTransGen.tail hnode_r (neighbors_mem_adjB he')

/-! ## Divergence of dijkstra on a reachable zero-weight cycle -/

theorem dijkstraLoop_gZero_cycle :
    ∀ fuel : Nat,
      dijkstraLoop gZero 0 2 fuel [some ((0 : Nat), 1), some (0, 0), none]
        [((0 : Nat), 0)] = .outOfFuel ∧
      dijkstraLoop gZero 0 2 fuel [some ((0 : Nat), 1), some (0, 0), none]
        [((0 : Nat), 1)] = .outOfFuel := by
  intro fuel
  induction fuel with
  | zero => exact ⟨rfl, rfl⟩
  | succ f ih =>
    constructor
    · have hstep : dijkstraLoop gZero 0 2 (f + 1)
          [some ((0 : Nat), 1), some (0, 0), none] [((0 : Nat), 0)] =
          dijkstraLoop gZero 0 2 f
          [some ((0 : Nat), 1), some (0, 0), none] [((0 : Nat), 1)] := rfl
      rw [hstep]
      exact ih.2
    · have hstep : dijkstraLoop gZero 0 2 (f + 1)
          [some ((0 : Nat), 1), some (0, 0), none] [((0 : Nat), 1)] =
          dijkstraLoop gZero 0 2 f
          [some ((0 : Nat), 1), some (0, 0), none] [((0 : Nat), 0)] := rfl
      rw [hstep]
      exact ih.1

theorem dijkstra_zero_cycle_diverges :
    ∀ fuel : Nat, gZero.dijkstra 0 2 fuel = .outOfFuel := by
  intro fuel
  match fuel with
  | 0 => rfl
  | 1 => rfl
  | (f + 2) =>
    have hstep : gZero.dijkstra 0 2 (f + 2) =
        dijkstraLoop gZero 0 2 f
        [some ((0 : Nat), 1), some (0, 0), none] [((0 : Nat), 0)] := rfl
    rw [hstep]
    exact (dijkstraLoop_gZero_cycle f).1

/-! ## Concrete unreachability facts -/

theorem gUnreach_reach : ∀ x, Reach gUnreach 0 x → x = 0 ∨ x = 1 := by
  intro x h
  induction h with
  | refl => exact Or.inl rfl
  | tail hab hbc ih =>
    rw [adjB_iff_mem] at hbc
    obtain ⟨p, hp, hor⟩ := hbc
    have he : gUnreach.edges = [((0, 1), 5)] := by decide
    rw [he] at hp
    rcases List.mem_singleton.mp hp with rfl
    simp only [] at hor
    rcases ih with h' | h' <;> rcases hor with ⟨ha, hb⟩ | ⟨ha, hb⟩ <;> omega

theorem not_reach_gUnreach : ¬ Reach gUnreach 0 2 := by
  intro h
  have := gUnreach_reach 2 h
  omega

theorem gSparse4_reach : ∀ x, Reach gSparse4 0 x → x = 0 ∨ x = 3 := by
  intro x h
  induction h with
  | refl => exact Or.inl rfl
  | tail hab hbc ih =>
    rw [adjB_iff_mem] at hbc
    obtain ⟨p, hp, hor⟩ := hbc
    have he : gSparse4.edges = [((0, 3), 0)] := by decide
    rw [he] at hp
    rcases List.mem_singleton.mp hp with rfl
    simp only [] at hor
    rcases ih with h' | h' <;> rcases hor with ⟨ha, hb⟩ | ⟨ha, hb⟩ <;> omega

theorem not_reach_gSparse4 : ¬ Reach gSparse4 0 2 := by
  intro h
  have := gSparse4_reach 2 h
  omega

theorem gZero_reach : ∀ x, Reach gZero 0 x → x = 0 ∨ x = 1 := by
  intro x h
  induction h with
  | refl => exact Or.inl rfl
  | tail hab hbc ih =>
    rw [adjB_iff_mem] at hbc
    obtain ⟨p, hp, hor⟩ := hbc
    have he : gZero.edges = [((0, 1), 0)] := by decide
    rw [he] at hp
    rcases List.mem_singleton.mp hp with rfl
    simp only [] at hor
    rcases ih with h' | h' <;> rcases hor with ⟨ha, hb⟩ | ⟨ha, hb⟩ <;> omega

theorem not_reach_gZero : ¬ Reach gZero 0 2 := by
  intro h
  have := gZero_reach 2 h
  omega

/-! ## Claim C8 -/

/-- Claim C8 fails as stated in two ways. On `gSparse4` every edge joins
existing nodes and node 2 is unreachable from node 0, yet `search 0 2`
panics in both modes, because the surviving identifier 3 is not below the
node count sizing the back-pointer vector. On `gZero` the edge weights are
non-negative and node 2 is unreachable from node 0, yet `dijkstra 0 2`
never returns at all: the zero-weight edge keeps being re-relaxed, so the
loop runs out of any amount of fuel instead of returning `None`. -/
theorem search_panics_on_unreachable_with_sparse_ids :
    (∀ p ∈ gSparse4.edges, (gSparse4.get_node p.1.1).isSome = true ∧
      (gSparse4.get_node p.1.2).isSome = true) ∧
    gSparse4.get_node 0 = some () ∧ gSparse4.get_node 2 = some () ∧
    ¬ Reach gSparse4 0 2 ∧
    gSparse4.search 0 2 SearchMode.BreadthFirst (gSparse4.num_nodes + 1) = .panicked ∧
    gSparse4.search 0 2 SearchMode.DepthFirst (gSparse4.num_nodes + 1) = .panicked ∧
    gZero.get_node 2 = some () ∧ ¬ Reach gZero 0 2 ∧
    gZero.dijkstra 0 2 (gZero.num_nodes + 1) = .outOfFuel := by
  refine ⟨by decide, by decide, by decide, not_reach_gSparse4, by decide, by decide,
    by decide, not_reach_gZero, dijkstra_zero_cycle_diverges _⟩

/-- Claim C8 amended: provided every node identifier and edge endpoint is
below the node count and the start node exists, an unreachable target makes
`search` (either mode) and `astar` (any heuristic) return `None` without
panicking, while `dijkstra` never panics and never returns a path — but it
need not terminate at all (a reachable zero-weight cycle makes it loop
forever), so for it only the absence of a panic or a path is guaranteed. -/
theorem unreachable_target_returns_none {V C F : Type} [LinearOrder C] [Add C] [Zero C]
    [LinearOrder F] [Zero F] (g : Graph V C) (frm tgt : Nat) (hd : g.Dense)
    (hfrm : frm < g.num_nodes) (hur : ¬ Reach g frm tgt) :
    (∀ (mode : SearchMode) (fuel : Nat), g.num_nodes + 1 ≤ fuel →
      g.search frm tgt mode fuel = .ok none) ∧
    (∀ (h : V → C → F) (fuel : Nat), g.num_nodes + 1 ≤ fuel →
      g.astar frm tgt h fuel = .ok none) ∧
    (∀ fuel : Nat, g.dijkstra frm tgt fuel = .outOfFuel ∨
      g.dijkstra frm tgt fuel = .ok none) := by
  refine ⟨?_, ?_, ?_⟩
  · intro mode fuel hfuel
    rw [Graph.search]
    apply searchLoop_unreachable g frm tgt mode hd hur fuel _ _
      (List.length_replicate _ _)
      (fun x hx => by rcases List.mem_singleton.mp hx with rfl
                      exact Relation.ReflTransGen.refl)
    rw [countNone_replicate, List.length_singleton]
    exact hfuel
  · intro h fuel hfuel
    rw [Graph.astar]
    apply astarLoop_unreachable g h frm tgt hd hur fuel _ _
      (List.length_replicate _ _)
      (fun p hp => by rcases List.mem_singleton.mp hp with rfl
                      exact Relation.ReflTransGen.refl)
    rw [countNone_replicate, List.length_singleton]
    exact hfuel
  · intro fuel
    rw [Graph.dijkstra, if_pos hfrm]
    refine dijkstraLoop_safe g frm tgt hd hur fuel _ _ ?_ ?_
    · rw [List.length_set, List.length_replicate]
    · intro p hp
      rcases List.mem_singleton.mp hp with rfl
      exact Relation.ReflTransGen.refl

theorem unreachable_target_returns_none_witness :
    (gUnreach : Graph Unit Nat).Dense ∧ 0 < gUnreach.num_nodes ∧ ¬ Reach gUnreach 0 2 ∧
    gUnreach.search 0 2 SearchMode.BreadthFirst 4 = .ok none ∧
    gUnreach.astar 0 2 (fun _ _ => (0 : Nat)) 4 = .ok none ∧
    (gUnreach.dijkstra 0 2 7 = .outOfFuel ∨ gUnreach.dijkstra 0 2 7 = .ok none) := by
  have h := @unreachable_target_returns_none Unit Nat Nat _ _ _ _ _ gUnreach 0 2
    (by decide) (by decide) not_reach_gUnreach
  exact ⟨by decide, by decide, not_reach_gUnreach,
    h.1 SearchMode.BreadthFirst 4 (by decide), h.2.1 (fun _ _ => 0) 4 (by decide),
    h.2.2 7⟩

/-! ## Path reconstruction along valid back-pointers -/

theorem countNone_le_length (l : List (Option Nat)) : countNone l ≤ l.length :=
  List.length_filter_le _ _

theorem rebuildS_extend (cf : List (Option Nat)) (frm : Nat) :
    ∀ (fuel : Nat) (x : Nat) (rest : List Nat),
      rebuildS cf frm fuel (x :: rest) =
        match rebuildS cf frm fuel [x] with
        | .ok l => .ok (l ++ rest)
        | .panicked => .panicked
        | .outOfFuel => .outOfFuel := by
  intro fuel
  induction fuel with
  | zero => intro x rest; rfl
  | succ f ih =>
    intro x rest
    rw [rebuildS, rebuildS]
    cases hx : cf[x]? with
    | none => rfl
    | some o =>
      cases o with
      | none => rfl
      | some m =>
        by_cases hm : m = frm
        · simp [hm]
        · simp only [if_neg hm]
          rw [ih m (x :: rest), ih m [x]]
          cases rebuildS cf frm f [m] with
          | ok l => simp
          | panicked => rfl
          | outOfFuel => rfl

theorem rebuildS_walk {V E : Type} (g : Graph V E) (frm : Nat)
    (cf : List (Option Nat)) (φ : Nat → Nat) (hlen : cf.length = g.num_nodes)
    (hptr : PtrInv g frm cf φ) :
    ∀ (d x : Nat), φ x ≤ d → x ≠ frm → x < g.num_nodes →
      (cf.getD x none).isSome = true →
      ∀ fuel : Nat, φ x + 2 ≤ fuel →
        ∃ pth : List Nat, rebuildS cf frm fuel [x] = .ok pth ∧
          IsWalk g pth frm x ∧ pth.length = φ x + 1 := by
  intro d
  induction d with
  | zero =>
    intro x hφ hxf hxn hset fuel hfuel
    obtain ⟨p, hp⟩ := Option.isSome_iff_exists.mp hset
    obtain ⟨hadj, hdone, hpn, heq, hbound⟩ := hptr x p hxf hp
    omega
  | succ d' ih =>
    intro x hφ hxf hxn hset fuel hfuel
    obtain ⟨p, hp⟩ := Option.isSome_iff_exists.mp hset
    obtain ⟨hadj, hdone, hpn, heq, hbound⟩ := hptr x p hxf hp
    have hx_idx : cf[x]? = some (cf.getD x none) := by
      have hxl : x < cf.length := by rw [hlen]; exact hxn
      rw [List.getElem?_eq_getElem hxl, getD_getElem none hxl]
    obtain ⟨f', rfl⟩ : ∃ k, fuel = k + 1 := ⟨fuel - 1, by omega⟩
    rw [rebuildS, hx_idx, hp]
    show ∃ pth : List Nat,
      (if p = frm then Res.ok [p, x] else rebuildS cf frm f' [p, x]) = .ok pth ∧
      IsWalk g pth frm x ∧ pth.length = φ x + 1
    by_cases hpf : p = frm
    · rw [if_pos hpf]
      refine ⟨[p, x], rfl, ⟨by rw [hpf]; exact rfl, rfl, ?_⟩, ?_⟩
      · have hch : walkChain g [p, x] = (adjB g p x && true) := rfl
        rw [hch, hadj]
        rfl
      · rw [if_pos hpf] at heq
        have h2 : ([p, x] : List Nat).length = 2 := rfl
        rw [h2]
        omega
    · rw [if_neg hpf]
      have hpset : (cf.getD p none).isSome = true := by
        unfold doneB at hdone
        rcases Bool.or_eq_true_iff.mp hdone with h' | h'
        · exact absurd (of_decide_eq_true h') hpf
        · exact h'
      rw [if_neg hpf] at heq
      have hφp : φ p ≤ d' := by omega
      obtain ⟨pth', hok', hwalk', hlen'⟩ := ih p hφp hpf hpn hpset f' (by omega)
      have hext := rebuildS_extend cf frm f' p [x]
      rw [hok'] at hext
      rw [hext]
      refine ⟨pth' ++ [x], rfl, IsWalk.append_adj pth' frm p hwalk' hadj, ?_⟩
      rw [List.length_append, hlen', List.length_singleton]
      omega

/-! ## Walk decomposition helpers -/

theorem walk_ne_length {g : Graph V E} {q : List Nat} {a b : Nat}
    (hw : IsWalk g q a b) (hab : a ≠ b) : 2 ≤ q.length := by
  cases q with
  | nil => cases hw.1
  | cons x t =>
    cases t with
    | nil =>
      have hax : a = x := head?_eq hw.1
      have hbx : b = x := by
        have h2 := hw.2.1
        rw [List.getLast?_singleton] at h2
        exact (Option.some.inj h2).symm
      exact absurd (hax.trans hbx.symm) hab
    | cons y t' => simp

theorem walkChain_cons_of_head {g : Graph V E} {x y : Nat} {q : List Nat}
    (hh : q.head? = some y) (hadj : adjB g x y = true) (hc : walkChain g q = true) :
    walkChain g (x :: q) = true := by
  cases q with
  | nil => cases hh
  | cons z t =>
    have hzy : y = z := head?_eq hh
    rw [walkChain_cons₂, Bool.and_eq_true]
    exact ⟨by rw [← hzy]; exact hadj, hc⟩

theorem walk_penultimate {g : Graph V E} :
    ∀ (q : List Nat) (a b : Nat), IsWalk g q a b → 2 ≤ q.length →
      ∃ (q' : List Nat) (w : Nat), q = q' ++ [b] ∧ IsWalk g q' a w ∧
        adjB g w b = true ∧ q'.length + 1 = q.length := by
  intro q
  induction q with
  | nil => intro a b hw _; cases hw.1
  | cons x t ih =>
    intro a b hw h2
    have hax : a = x := head?_eq hw.1
    cases t with
    | nil => simp at h2
    | cons y t' =>
      have hw' : IsWalk g (y :: t') y b := by
        refine ⟨rfl, ?_, walkChain_tail hw.2.2⟩
        have h3 := hw.2.1
        rw [List.getLast?_cons_cons] at h3
        exact h3
      have hxy : adjB g x y = true := by
        have h3 := hw.2.2
        rw [walkChain_cons₂, Bool.and_eq_true] at h3
        exact h3.1
      cases t' with
      | nil =>
        have hyb : y = b := by
          have h3 := hw'.2.1
          rw [List.getLast?_singleton] at h3
          exact Option.some.inj h3
        refine ⟨[x], x, ?_, ⟨by rw [hax]; exact rfl, rfl, rfl⟩, ?_, rfl⟩
        · rw [hyb]
          rfl
        · rw [← hyb]
          exact hxy
      | cons z t'' =>
        obtain ⟨q', w, hq, hwq, hadj, hlen⟩ := ih y b hw' (by simp)
        refine ⟨x :: q', w, ?_, ?_, hadj, ?_⟩
        · rw [List.cons_append, ← hq]
        · refine ⟨by rw [hax]; exact rfl, ?_, ?_⟩
          · cases q' with
            | nil => simp at hq
            | cons u q'' =>
              rw [List.getLast?_cons_cons]
              exact hwq.2.1
          · refine walkChain_cons_of_head ?_ hxy hwq.2.2
            have : q'.head? = some y := by
              have h4 : (q' ++ [b]).head? = some y := by
                rw [← hq]
                rfl
              cases q' with
              | nil =>
                rw [hq] at hw'
                have := head?_eq hw'.1
                cases hq
              | cons u q'' =>
                have hyu : y = u := head?_eq h4
                rw [List.head?_cons, hyu]
            exact this
        · simp only [List.length_cons] at hlen ⊢
          omega

/-! ## Undiscovered-path propagation across one scan -/

theorem doneB_mono {cf cf' : List (Option Nat)} {frm cur : Nat} {new : List Nat}
    (hchar : ∀ x, cf'.getD x none = if x ∈ new then some cur else cf.getD x none) :
    ∀ x, doneB cf frm x = true → doneB cf' frm x = true := by
  intro x hx
  unfold doneB at hx ⊢
  rcases Bool.or_eq_true_iff.mp hx with h | h
  · rw [h]
    rfl
  · rw [hchar]
    by_cases hxn : x ∈ new
    · rw [if_pos hxn]
      simp
    · rw [if_neg hxn, h, Bool.or_true]

theorem doneB_new {cf cf' : List (Option Nat)} {frm cur : Nat} {new : List Nat}
    (hchar : ∀ x, cf'.getD x none = if x ∈ new then some cur else cf.getD x none) :
    ∀ x, doneB cf' frm x = true → doneB cf frm x = false → x ∈ new := by
  intro x h1 h2
  unfold doneB at h1 h2
  by_contra hxn
  rw [hchar, if_neg hxn] at h1
  rw [h1] at h2
  cases h2

theorem upath_step {V E : Type} {g : Graph V E} {frm tgt cur : Nat}
    {cf cf' : List (Option Nat)} {queue' new : List Nat}
    (hchar : ∀ x, cf'.getD x none = if x ∈ new then some cur else cf.getD x none)
    (hnewq : ∀ x ∈ new, x ∈ queue')
    (hscan_all : ∀ y, adjB g cur y = true → doneB cf' frm y = true)
    (htc : cur ≠ tgt) :
    ∀ (m : Nat) (p : List Nat) (s : Nat), p.length ≤ m → IsWalk g p s tgt →
      (∀ x ∈ p.tail, doneB cf frm x = false) →
      (s ∈ queue' ∨ s = cur) →
      ∃ s' ∈ queue', ∃ p', IsWalk g p' s' tgt ∧
        ∀ x ∈ p'.tail, doneB cf' frm x = false := by
  intro m
  induction m with
  | zero =>
    intro p s hl hw _ _
    cases p with
    | nil => cases hw.1
    | cons x t => simp at hl
  | succ m' ih =>
    intro p s hl hw htail hs
    by_cases hallu : ∀ x ∈ p.tail, doneB cf' frm x = false
    · rcases hs with hs | hs
      · exact ⟨s, hs, p, hw, hallu⟩
      · subst hs
        cases hp : p with
        | nil => rw [hp] at hw; cases hw.1
        | cons x t =>
          rw [hp] at hw htail hallu
          have hsx : s = x := head?_eq hw.1
          cases t with
          | nil =>
            have hsb : s = tgt := by
              have h3 := hw.2.1
              rw [List.getLast?_singleton] at h3
              rw [hsx]
              exact Option.some.inj h3
            exact absurd hsb htc
          | cons y t' =>
            have hxy : adjB g x y = true := by
              have h3 := hw.2.2
              rw [walkChain_cons₂, Bool.and_eq_true] at h3
              exact h3.1
            have hy : doneB cf' frm y = true := by
              refine hscan_all y ?_
              rw [hsx]
              exact hxy
            have := hallu y (List.mem_cons_self _ _)
            rw [hy] at this
            cases this
    · push_neg at hallu
      obtain ⟨x, hxt, hxd⟩ := hallu
      have hxd' : doneB cf' frm x = true := by
        cases h' : doneB cf' frm x
        · exact absurd h' hxd
        · rfl
      have hxnew : x ∈ new := doneB_new hchar x hxd' (htail x hxt)
      cases hp : p with
      | nil => rw [hp] at hw; cases hw.1
      | cons ph t =>
        rw [hp] at hw htail hxt
        have hxt' : x ∈ t := hxt
        obtain ⟨t₁, t₂, ht⟩ := List.append_of_mem hxt'
        have hsplit : ph :: t = (ph :: t₁) ++ (x :: t₂) := by
          rw [List.cons_append, ht]
        have hwsuf : IsWalk g (x :: t₂) x tgt := by
          refine ⟨rfl, ?_, ?_⟩
          · have h3 := hw.2.1
            rw [hsplit, List.getLast?_append] at h3
            have hz := List.getLast?_eq_getLast (x :: t₂) (by simp)
            rw [hz]
            rw [hz] at h3
            exact h3
          · have h3 := hw.2.2
            rw [hsplit] at h3
            exact walkChain_suffix _ _ h3
        refine ih (x :: t₂) x ?_ hwsuf ?_ (Or.inl (hnewq x hxnew))
        · have hlen2 : t.length = t₁.length + 1 + t₂.length := by
            rw [ht]
            simp
            omega
          rw [hp] at hl
          simp only [List.length_cons] at hl ⊢
          omega
        · intro z hz
          refine htail z ?_
          rw [ht]
          refine List.mem_append.mpr (Or.inr ?_)
          exact List.mem_cons_of_mem _ hz

/-! ## The search loop finds a reachable target -/

theorem searchLoop_find {V E : Type} (g : Graph V E) (frm tgt : Nat) (mode : SearchMode)
    (hd : g.Dense) (htf : tgt ≠ frm) :
    ∀ (fuel : Nat) (cf : List (Option Nat)) (queue : List Nat) (φ : Nat → Nat),
      cf.length = g.num_nodes →
      (∀ x ∈ queue, x < g.num_nodes ∧ doneB cf frm x = true) →
      PtrInv g frm cf φ →
      countNone cf + queue.length ≤ fuel →
      (∃ s ∈ queue, ∃ p, IsWalk g p s tgt ∧ ∀ x ∈ p.tail, doneB cf frm x = false) →
      ∃ pth, searchLoop g frm tgt mode fuel cf queue = .ok (some pth) ∧
        IsWalk g pth frm tgt := by
  intro fuel
  induction fuel with
  | zero =>
    intro cf queue φ hlen hq hptr hfuel hup
    obtain ⟨s, hs, -⟩ := hup
    cases queue with
    | nil => cases hs
    | cons a t =>
      rw [List.length_cons] at hfuel
      omega
  | succ f ihf =>
    intro cf queue φ hlen hq hptr hfuel hup
    cases queue with
    | nil =>
      obtain ⟨s, hs, -⟩ := hup
      cases hs
    | cons q0 qt =>
      have hqne : q0 :: qt ≠ [] := by simp
      have hperm := popMode_spec mode hqne
      set cur := (mode.next (q0 :: qt)).1 with hcur
      set rest := (mode.next (q0 :: qt)).2 with hrest
      have hcur_mem : cur ∈ q0 :: qt := hperm.mem_iff.mpr (List.mem_cons_self _ _)
      obtain ⟨hcur_lt, hcur_done⟩ := hq cur hcur_mem
      by_cases hct : cur = tgt
      · have hcf : cur ≠ frm := by
          rw [hct]
          exact htf
        have hset : (cf.getD cur none).isSome = true := by
          unfold doneB at hcur_done
          rcases Bool.or_eq_true_iff.mp hcur_done with h' | h'
          · exact absurd (of_decide_eq_true h') hcf
          · exact h'
        obtain ⟨p0, hp0⟩ := Option.isSome_iff_exists.mp hset
        have hbd := (hptr cur p0 hcf hp0).2.2.2.2
        obtain ⟨pth, hok, hwalk, -⟩ :=
          rebuildS_walk g frm cf φ hlen hptr (φ cur) cur (Nat.le_refl _) hcf hcur_lt hset
            (cf.length + 2) (by rw [hlen]; omega)
        refine ⟨pth, ?_, hct ▸ hwalk⟩
        rw [searchLoop_cons, ← hcur, ← hrest, if_pos hct, hok]
      · have hnbrs : ∀ q ∈ g.neighbors cur, q.1 < cf.length := by
          intro q hq'
          have : (q.1, q.2) ∈ g.neighbors cur := by rwa [Prod.mk.eta]
          rw [hlen]
          exact (adjB_lt hd (neighbors_mem_adjB this)).2
        obtain ⟨cf', new, hok, hlen', hnd, hnew, hall, hchar, hcnt⟩ :=
          searchScan_spec cur (g.neighbors cur) cf rest hnbrs
        have hnew_adj : ∀ x ∈ new, adjB g cur x = true := by
          intro x hx
          obtain ⟨⟨e, he⟩, -⟩ := hnew x hx
          exact neighbors_mem_adjB he
        have hscan_all : ∀ y, adjB g cur y = true → doneB cf' frm y = true := by
          intro y hy
          obtain ⟨e, he⟩ := adjB_mem_neighbors hy
          have := hall y e he
          unfold doneB
          rw [this, Bool.or_true]
        have hdone_mono : ∀ x, doneB cf frm x = true → doneB cf' frm x = true :=
          doneB_mono hchar
        have hcur_notnew : cur ∉ new → True := fun _ => trivial
        have hnotnew : ∀ z, z ≠ frm → doneB cf frm z = true → z ∉ new := by
          intro z hzf hzd hzn
          have := (hnew z hzn).2
          unfold doneB at hzd
          rcases Bool.or_eq_true_iff.mp hzd with h' | h'
          · exact hzf (of_decide_eq_true h')
          · rw [this] at h'
            cases h'
        set φ' : Nat → Nat :=
          fun y => if y ∈ new then (if cur = frm then 0 else φ cur) + 1 else φ y with hφ'
        have hq' : ∀ x ∈ rest ++ new, x < g.num_nodes ∧ doneB cf' frm x = true := by
          intro x hx
          rcases List.mem_append.mp hx with hx | hx
          · obtain ⟨h1, h2⟩ := hq x (hperm.mem_iff.mpr (List.mem_cons_of_mem _ hx))
            exact ⟨h1, hdone_mono x h2⟩
          · refine ⟨(adjB_lt hd (hnew_adj x hx)).2, ?_⟩
            unfold doneB
            rw [hchar, if_pos hx]
            simp
        have hcntN : countNone cf ≤ g.num_nodes := by
          rw [← hlen]
          exact countNone_le_length cf
        have hptr' : PtrInv g frm cf' φ' := by
          intro x p hxf hx'
          by_cases hxn : x ∈ new
          · have hpc : p = cur := by
              have h1 := hchar x
              rw [if_pos hxn] at h1
              rw [h1] at hx'
              exact (Option.some.inj hx').symm
            subst hpc
            refine ⟨hnew_adj x hxn, hdone_mono cur hcur_done, hcur_lt, ?_, ?_⟩
            · rw [hφ']
              simp only [if_pos hxn]
              by_cases hcf : cur = frm
              · rw [if_pos hcf, if_pos hcf]
              · rw [if_neg hcf, if_neg hcf, if_neg (hnotnew cur hcf hcur_done)]
            · rw [hφ']
              simp only [if_pos hxn]
              by_cases hcf : cur = frm
              · rw [if_pos hcf]
                have hx1 : 1 ≤ new.length := by
                  cases new with
                  | nil => cases hxn
                  | cons a t => simp
                omega
              · rw [if_neg hcf]
                have hpset : (cf.getD cur none).isSome = true := by
                  unfold doneB at hcur_done
                  rcases Bool.or_eq_true_iff.mp hcur_done with h' | h'
                  · exact absurd (of_decide_eq_true h') hcf
                  · exact h'
                obtain ⟨pc, hpcc⟩ := Option.isSome_iff_exists.mp hpset
                have hbd := (hptr cur pc hcf hpcc).2.2.2.2
                have hx1 : 1 ≤ new.length := by
                  cases new with
                  | nil => cases hxn
                  | cons a t => simp
                omega
          · have h1 := hchar x
            rw [if_neg hxn] at h1
            rw [h1] at hx'
            obtain ⟨hadj, hdp, hplt, heq, hbd⟩ := hptr x p hxf hx'
            refine ⟨hadj, hdone_mono p hdp, hplt, ?_, ?_⟩
            · rw [hφ']
              simp only [if_neg hxn]
              by_cases hpf : p = frm
              · rw [if_pos hpf]
                rw [if_pos hpf] at heq
                exact heq
              · rw [if_neg hpf, if_neg (hnotnew p hpf hdp)]
                rw [if_neg hpf] at heq
                exact heq
            · rw [hφ']
              simp only [if_neg hxn]
              omega
        have hmeas : countNone cf' + (rest ++ new).length ≤ f := by
          have hql : (q0 :: qt).length = rest.length + 1 := by
            rw [hperm.length_eq]
            rfl
          rw [List.length_append]
          rw [hql] at hfuel
          omega
        have hup' : ∃ s ∈ rest ++ new, ∃ p, IsWalk g p s tgt ∧
            ∀ x ∈ p.tail, doneB cf' frm x = false := by
          obtain ⟨s, hs, p, hwp, htailp⟩ := hup
          have hs' : s ∈ rest ++ new ∨ s = cur := by
            rcases List.mem_cons.mp (hperm.mem_iff.mp hs) with h' | h'
            · exact Or.inr h'
            · exact Or.inl (List.mem_append.mpr (Or.inl h'))
          exact upath_step hchar (fun x hx => List.mem_append.mpr (Or.inr hx))
            hscan_all hct p.length p s (Nat.le_refl _) hwp htailp hs'
        obtain ⟨pth, hokr, hwr⟩ := ihf cf' (rest ++ new) φ' (by rw [hlen', hlen]) hq'
          hptr' hmeas hup'
        refine ⟨pth, ?_, hwr⟩
        rw [searchLoop_cons, ← hcur, ← hrest, if_neg hct, hok]
        simp only [hokr]

/-! ## Pointer invariant preservation across one scan -/

theorem hnotnew_of_done {cf : List (Option Nat)} {frm : Nat} {new : List Nat}
    (hnew_undone : ∀ x ∈ new, cf.getD x none = none) :
    ∀ z, z ≠ frm → doneB cf frm z = true → z ∉ new := by
  intro z hzf hzd hzn
  have := hnew_undone z hzn
  unfold doneB at hzd
  rcases Bool.or_eq_true_iff.mp hzd with h' | h'
  · exact hzf (of_decide_eq_true h')
  · rw [this] at h'
    cases h'

theorem ptrInv_step {V E : Type} {g : Graph V E} {frm cur : Nat}
    {cf cf' : List (Option Nat)} {new : List Nat} {φ : Nat → Nat}
    (hchar : ∀ x, cf'.getD x none = if x ∈ new then some cur else cf.getD x none)
    (hnew_adj : ∀ x ∈ new, adjB g cur x = true)
    (hnew_undone : ∀ x ∈ new, cf.getD x none = none)
    (hcnt : countNone cf' + new.length = countNone cf)
    (hlen : cf.length = g.num_nodes)
    (hcur_lt : cur < g.num_nodes)
    (hcur_done : doneB cf frm cur = true)
    (hptr : PtrInv g frm cf φ) :
    PtrInv g frm cf'
      (fun y => if y ∈ new then (if cur = frm then 0 else φ cur) + 1 else φ y) := by
  have hcntN : countNone cf ≤ g.num_nodes := by
    rw [← hlen]
    exact countNone_le_length cf
  have hnotnew : ∀ z, z ≠ frm → doneB cf frm z = true → z ∉ new :=
    hnotnew_of_done hnew_undone
  intro x p hxf hx'
  by_cases hxn : x ∈ new
  · have hpc : p = cur := by
      have h1 := hchar x
      rw [if_pos hxn] at h1
      rw [h1] at hx'
      exact (Option.some.inj hx').symm
    subst hpc
    refine ⟨hnew_adj x hxn, doneB_mono hchar p hcur_done, hcur_lt, ?_, ?_⟩
    · simp only [if_pos hxn]
      by_cases hcf : p = frm
      · rw [if_pos hcf, if_pos hcf]
      · rw [if_neg hcf, if_neg hcf, if_neg (hnotnew p hcf hcur_done)]
    · simp only [if_pos hxn]
      have hx1 : 1 ≤ new.length := by
        cases new with
        | nil => cases hxn
        | cons a t => simp
      by_cases hcf : p = frm
      · rw [if_pos hcf]
        omega
      · rw [if_neg hcf]
        have hpset : (cf.getD p none).isSome = true := by
          unfold doneB at hcur_done
          rcases Bool.or_eq_true_iff.mp hcur_done with h' | h'
          · exact absurd (of_decide_eq_true h') hcf
          · exact h'
        obtain ⟨pc, hpcc⟩ := Option.isSome_iff_exists.mp hpset
        have hbd := (hptr p pc hcf hpcc).2.2.2.2
        omega
  · have h1 := hchar x
    rw [if_neg hxn] at h1
    rw [h1] at hx'
    obtain ⟨hadj, hdp, hplt, heq, hbd⟩ := hptr x p hxf hx'
    refine ⟨hadj, doneB_mono hchar p hdp, hplt, ?_, ?_⟩
    · simp only [if_neg hxn]
      by_cases hpf : p = frm
      · rw [if_pos hpf]
        rw [if_pos hpf] at heq
        exact heq
      · rw [if_neg hpf, if_neg (hnotnew p hpf hdp)]
        rw [if_neg hpf] at heq
        exact heq
    · simp only [if_neg hxn]
      omega

/-! ## BFS shortest-path helpers -/

theorem doneB_undone {cf : List (Option Nat)} {frm x : Nat}
    (hxf : x ≠ frm) (hnone : cf.getD x none = none) : doneB cf frm x = false := by
  unfold doneB
  rw [decide_eq_false hxf, hnone]
  rfl

theorem doneB_ptr {cf : List (Option Nat)} {frm x : Nat}
    (hxf : x ≠ frm) (hdx : doneB cf frm x = true) :
    (cf.getD x none).isSome = true := by
  unfold doneB at hdx
  rcases Bool.or_eq_true_iff.mp hdx with h | h
  · exact absurd (of_decide_eq_true h) hxf
  · exact h

theorem doneB_frm (cf : List (Option Nat)) (frm : Nat) : doneB cf frm frm = true := by
  unfold doneB
  rw [decide_eq_true rfl]
  rfl

theorem walk_short_cases {V E : Type} {g : Graph V E} {q : List Nat} {a b : Nat}
    (hw : IsWalk g q a b) (hl : q.length ≤ 2) : a = b ∨ adjB g a b = true := by
  cases q with
  | nil => cases hw.1
  | cons x t =>
    have hax : a = x := head?_eq hw.1
    cases t with
    | nil =>
      left
      have hbx : b = x := by
        have h2 := hw.2.1
        rw [List.getLast?_singleton] at h2
        exact (Option.some.inj h2).symm
      rw [hax, hbx]
    | cons y t' =>
      cases t' with
      | nil =>
        right
        have hby : b = y := by
          have h2 := hw.2.1
          rw [List.getLast?_cons_cons, List.getLast?_singleton] at h2
          exact (Option.some.inj h2).symm
        have hadj : adjB g x y = true := by
          have h3 := hw.2.2
          rw [walkChain_cons₂, Bool.and_eq_true] at h3
          exact h3.1
        rw [hax, hby]
        exact hadj
      | cons z t'' => simp at hl

theorem ptrInv_congr {V E : Type} {g : Graph V E} {frm : Nat} {cf : List (Option Nat)}
    {φ₁ φ₂ : Nat → Nat} (h : ∀ x, x ≠ frm → φ₁ x = φ₂ x) (hp : PtrInv g frm cf φ₁) :
    PtrInv g frm cf φ₂ := by
  intro x p hxf hxp
  obtain ⟨h1, h2, h3, h4, h5⟩ := hp x p hxf hxp
  refine ⟨h1, h2, h3, ?_, ?_⟩
  · rw [← h x hxf]
    by_cases hpf : p = frm
    · rw [if_pos hpf]
      rw [if_pos hpf] at h4
      exact h4
    · rw [if_neg hpf, ← h p hpf]
      rw [if_neg hpf] at h4
      exact h4
  · rw [← h x hxf]
    exact h5

theorem bfs_closed_step {V E : Type} {g : Graph V E} {frm q0 : Nat}
    {cf cf' : List (Option Nat)} {qt new : List Nat}
    (hchar : ∀ x, cf'.getD x none = if x ∈ new then some q0 else cf.getD x none)
    (hscan_all : ∀ y, adjB g q0 y = true → doneB cf' frm y = true)
    (hclosed : ∀ x, doneB cf frm x = true → x ∉ q0 :: qt →
      ∀ y, adjB g x y = true → doneB cf frm y = true) :
    ∀ x, doneB cf' frm x = true → x ∉ qt ++ new →
      ∀ y, adjB g x y = true → doneB cf' frm y = true := by
  intro x hdx hxq y hady
  by_cases hxc : x = q0
  · subst hxc
    exact hscan_all y hady
  · have hxnew : x ∉ new := fun hx => hxq (List.mem_append.mpr (Or.inr hx))
    have hdx_old : doneB cf frm x = true := by
      by_cases hxf : x = frm
      · rw [hxf]
        exact doneB_frm cf frm
      · have hset := doneB_ptr hxf hdx
        rw [hchar x, if_neg hxnew] at hset
        unfold doneB
        rw [hset, Bool.or_true]
    have hxq_old : x ∉ q0 :: qt := by
      intro hx
      rcases List.mem_cons.mp hx with h | h
      · exact hxc h
      · exact hxq (List.mem_append.mpr (Or.inl h))
    exact doneB_mono hchar y (hclosed x hdx_old hxq_old y hady)

theorem bfsInv_init {V E : Type} {g : Graph V E} {frm : Nat} (hd : g.Dense)
    {cf cf' : List (Option Nat)} {new : List Nat}
    (hfrm : frm < g.num_nodes)
    (hclen : cf.length = g.num_nodes)
    (hnone : ∀ x, cf.getD x none = none)
    (hnew_adj : ∀ y ∈ new, adjB g frm y = true)
    (hnew_undone : ∀ y ∈ new, cf.getD y none = none)
    (hscan_all : ∀ y, adjB g frm y = true → doneB cf' frm y = true)
    (hchar : ∀ x, cf'.getD x none = if x ∈ new then some frm else cf.getD x none)
    (hcnt : countNone cf' + new.length = countNone cf)
    (hlen' : cf'.length = g.num_nodes) :
    ∃ φ', BFSInv g frm cf' new φ' 1 := by
  have hptr0 : PtrInv g frm cf (fun _ => 0) := by
    intro x p hxf hxp
    rw [hnone x] at hxp
    cases hxp
  have hstep := ptrInv_step hchar hnew_adj hnew_undone hcnt hclen hfrm
    (doneB_frm cf frm) hptr0
  refine ⟨fun y => if y ∈ new then 1 else 0, hlen', ?_, ?_, ?_, ?_, ?_, ?_, ?_⟩
  · intro x hx
    exact ⟨(adjB_lt hd (hnew_adj x hx)).2, hscan_all x (hnew_adj x hx)⟩
  · refine ptrInv_congr ?_ hstep
    intro x _
    by_cases hx : x ∈ new
    · simp [hx]
    · simp [hx]
  · intro x hxf hset q hw
    have hxn : x ∈ new := by
      by_contra hxn
      rw [hchar x, if_neg hxn, hnone x] at hset
      simp at hset
    show (if x ∈ new then 1 else 0) + 1 ≤ q.length
    rw [if_pos hxn]
    have h2 := walk_ne_length hw (fun h => hxf h.symm)
    omega
  · refine ⟨new.filter (fun y => y != frm), [], (List.append_nil _).symm, ?_, ?_⟩
    · intro x hx
      obtain ⟨hxn, -⟩ := List.mem_filter.mp hx
      show (if x ∈ new then 1 else 0) = 1
      rw [if_pos hxn]
    · intro x hx
      cases hx
  · intro z q hw hlq
    rcases walk_short_cases hw hlq with h | h
    · rw [← h]
      exact doneB_frm cf' frm
    · exact hscan_all z h
  · exact hscan_all
  · intro x hdx hxq y hady
    by_cases hxf : x = frm
    · subst hxf
      exact hscan_all y hady
    · exfalso
      have hset := doneB_ptr hxf hdx
      have hxn : x ∈ new := by
        by_contra hxn
        rw [hchar x, if_neg hxn, hnone x] at hset
        simp at hset
      exact hxq hxn

theorem bfsInv_step {V E : Type} {g : Graph V E} {frm q0 : Nat} (hd : g.Dense)
    {cf cf' : List (Option Nat)} {qt new : List Nat} {φ : Nat → Nat} {k : Nat}
    (hinv : BFSInv g frm cf (q0 :: qt) φ k)
    (hnew_adj : ∀ y ∈ new, adjB g q0 y = true)
    (hnew_undone : ∀ y ∈ new, cf.getD y none = none)
    (hscan_all : ∀ y, adjB g q0 y = true → doneB cf' frm y = true)
    (hchar : ∀ x, cf'.getD x none = if x ∈ new then some q0 else cf.getD x none)
    (hcnt : countNone cf' + new.length = countNone cf)
    (hlen2 : cf'.length = cf.length) :
    ∃ φ' k', BFSInv g frm cf' (qt ++ new) φ' k' := by
  obtain ⟨hlen, hq, hptr, hopt, ⟨qa, qb, hfq, hqa, hqb⟩, hlayer, hroot, hclosed⟩ := hinv
  obtain ⟨hq0_lt, hq0_done⟩ := hq q0 (List.mem_cons_self _ _)
  have hmono : ∀ x, doneB cf frm x = true → doneB cf' frm x = true := doneB_mono hchar
  have hnotnew : ∀ z, z ≠ frm → doneB cf frm z = true → z ∉ new :=
    hnotnew_of_done hnew_undone
  have hstep := ptrInv_step hchar hnew_adj hnew_undone hcnt hlen hq0_lt hq0_done hptr
  have hq' : ∀ x ∈ qt ++ new, x < g.num_nodes ∧ doneB cf' frm x = true := by
    intro x hx
    rcases List.mem_append.mp hx with hx | hx
    · obtain ⟨h1, h2⟩ := hq x (List.mem_cons_of_mem _ hx)
      exact ⟨h1, hmono x h2⟩
    · exact ⟨(adjB_lt hd (hnew_adj x hx)).2, hscan_all x (hnew_adj x hx)⟩
  have hlen' : cf'.length = g.num_nodes := by rw [hlen2, hlen]
  have hnew_notdone : ∀ x ∈ new, x ≠ frm → doneB cf frm x = false := by
    intro x hx hxf
    exact doneB_undone hxf (hnew_undone x hx)
  by_cases hcf : q0 = frm
  · -- re-pop of the root: only the root itself can be rediscovered
    have hnew_sub : ∀ y ∈ new, y = frm := by
      intro y hy
      by_contra hyf
      have hdy : doneB cf frm y = true := hroot y (hcf ▸ hnew_adj y hy)
      exact hnotnew y hyf hdy hy
    have hptr' : PtrInv g frm cf' φ := by
      refine ptrInv_congr ?_ hstep
      intro x hxf
      rw [if_neg (fun hx => hxf (hnew_sub x hx))]
    have hopt' : ∀ x, x ≠ frm → (cf'.getD x none).isSome = true →
        ∀ q, IsWalk g q frm x → φ x + 1 ≤ q.length := by
      intro x hxf hset q hw
      have hxnot : x ∉ new := fun hx => hxf (hnew_sub x hx)
      rw [hchar x, if_neg hxnot] at hset
      exact hopt x hxf hset q hw
    have hfq' : (qt ++ new).filter (fun y => y != frm) = qa ++ qb := by
      rw [List.filter_append]
      have h1 : new.filter (fun y => y != frm) = [] :=
        List.filter_eq_nil_iff.mpr (fun a ha => by rw [hnew_sub a ha]; simp)
      rw [h1, List.append_nil]
      have h2 : (q0 :: qt).filter (fun y => y != frm) = qt.filter (fun y => y != frm) := by
        rw [List.filter_cons, if_neg (by rw [hcf]; simp)]
      rw [← h2]
      exact hfq
    refine ⟨φ, k, hlen', hq', hptr', hopt', ⟨qa, qb, hfq', hqa, hqb⟩,
      fun z q hw hlq => hmono z (hlayer z q hw hlq),
      fun y hy => hmono y (hroot y hy),
      bfs_closed_step hchar hscan_all hclosed⟩
  · have hfcons : (q0 :: qt).filter (fun y => y != frm) =
        q0 :: qt.filter (fun y => y != frm) := by
      rw [List.filter_cons, if_pos (by simpa using hcf)]
    have hopt_keep : ∀ x, x ≠ frm → x ∉ new → (cf'.getD x none).isSome = true →
        ∀ q, IsWalk g q frm x → φ x + 1 ≤ q.length := by
      intro x hxf hxn hset q hw
      rw [hchar x, if_neg hxn] at hset
      exact hopt x hxf hset q hw
    have hptr' : PtrInv g frm cf' (fun y => if y ∈ new then φ q0 + 1 else φ y) := by
      refine ptrInv_congr ?_ hstep
      intro x hxf
      by_cases hx : x ∈ new
      · simp only [if_pos hx, if_neg hcf]
      · simp only [if_neg hx]
    cases qa with
    | cons a qa' =>
      -- the popped node sits at the current level `k`
      have hinj : q0 = a ∧ qt.filter (fun y => y != frm) = qa' ++ qb := by
        have h3 := hfq
        rw [hfcons, List.cons_append] at h3
        exact ⟨(List.cons.inj h3).1, (List.cons.inj h3).2⟩
      obtain ⟨haq, hft⟩ := hinj
      have hφq0 : φ q0 = k := by
        rw [haq]
        exact hqa a (List.mem_cons_self _ _)
      have hopt' : ∀ x, x ≠ frm → (cf'.getD x none).isSome = true →
          ∀ q, IsWalk g q frm x →
            (if x ∈ new then φ q0 + 1 else φ x) + 1 ≤ q.length := by
        intro x hxf hset q hw
        by_cases hxn : x ∈ new
        · rw [if_pos hxn]
          by_contra hlt
          have hql : q.length ≤ k + 1 := by omega
          have hdone_old := hlayer x q hw hql
          rw [hnew_notdone x hxn hxf] at hdone_old
          exact Bool.noConfusion hdone_old
        · rw [if_neg hxn]
          exact hopt_keep x hxf hxn hset q hw
      have hlv : (qt ++ new).filter (fun y => y != frm) =
          qa' ++ (qb ++ new.filter (fun y => y != frm)) := by
        rw [List.filter_append, hft, List.append_assoc]
      have hqa'' : ∀ x ∈ qa', (if x ∈ new then φ q0 + 1 else φ x) = k := by
        intro x hx
        have hxq : x ∈ qt.filter (fun y => y != frm) := by
          rw [hft]
          exact List.mem_append.mpr (Or.inl hx)
        obtain ⟨hxqt, hxbne⟩ := List.mem_filter.mp hxq
        have hxf : x ≠ frm := by simpa using hxbne
        have hxdone := (hq x (List.mem_cons_of_mem _ hxqt)).2
        rw [if_neg (hnotnew x hxf hxdone)]
        exact hqa x (List.mem_cons_of_mem _ hx)
      have hqb'' : ∀ x ∈ qb ++ new.filter (fun y => y != frm),
          (if x ∈ new then φ q0 + 1 else φ x) = k + 1 := by
        intro x hx
        rcases List.mem_append.mp hx with hx | hx
        · have hxq : x ∈ (q0 :: qt).filter (fun y => y != frm) := by
            rw [hfq]
            exact List.mem_append.mpr (Or.inr hx)
          obtain ⟨hxqt, hxbne⟩ := List.mem_filter.mp hxq
          have hxf : x ≠ frm := by simpa using hxbne
          have hxdone := (hq x hxqt).2
          rw [if_neg (hnotnew x hxf hxdone)]
          exact hqb x hx
        · obtain ⟨hxn, -⟩ := List.mem_filter.mp hx
          rw [if_pos hxn]
          omega
      refine ⟨fun y => if y ∈ new then φ q0 + 1 else φ y, k, hlen', hq', hptr', hopt',
        ⟨qa', qb ++ new.filter (fun y => y != frm), hlv, hqa'', hqb''⟩,
        fun z q hw hlq => hmono z (hlayer z q hw hlq),
        fun y hy => hmono y (hroot y hy),
        bfs_closed_step hchar hscan_all hclosed⟩
    | nil =>
      -- the popped node opens level `k + 1`; the frontier advances
      have hqb_eq : qb = q0 :: qt.filter (fun y => y != frm) := by
        rw [← hfcons, hfq, List.nil_append]
      have hφq0 : φ q0 = k + 1 := by
        refine hqb q0 ?_
        rw [hqb_eq]
        exact List.mem_cons_self _ _
      have hpen : ∀ z q, IsWalk g q frm z → q.length = k + 2 →
          doneB cf frm z = true := by
        intro z q hw hql
        obtain ⟨q', w, hqeq, hw', hadj, hql'⟩ := walk_penultimate q frm z hw (by omega)
        have hdw : doneB cf frm w = true := hlayer w q' hw' (by omega)
        by_cases hwf : w = frm
        · refine hroot z ?_
          rw [← hwf]
          exact hadj
        · have hset := doneB_ptr hwf hdw
          have hφw : φ w + 1 ≤ k + 1 := by
            have h4 := hopt w hwf hset q' hw'
            omega
          by_cases hwq : w ∈ q0 :: qt
          · exfalso
            have hwfil : w ∈ (q0 :: qt).filter (fun y => y != frm) :=
              List.mem_filter.mpr ⟨hwq, by simpa using hwf⟩
            rw [hfq, List.nil_append] at hwfil
            have h5 := hqb w hwfil
            omega
          · exact hclosed w hdw hwq z hadj
      have hopt' : ∀ x, x ≠ frm → (cf'.getD x none).isSome = true →
          ∀ q, IsWalk g q frm x →
            (if x ∈ new then φ q0 + 1 else φ x) + 1 ≤ q.length := by
        intro x hxf hset q hw
        by_cases hxn : x ∈ new
        · rw [if_pos hxn]
          by_contra hlt
          have hcase : q.length ≤ k + 1 ∨ q.length = k + 2 := by omega
          have hdone_old : doneB cf frm x = true := by
            rcases hcase with h | h
            · exact hlayer x q hw h
            · exact hpen x q hw h
          rw [hnew_notdone x hxn hxf] at hdone_old
          exact Bool.noConfusion hdone_old
        · rw [if_neg hxn]
          exact hopt_keep x hxf hxn hset q hw
      have hqa₂ : ∀ x ∈ qt.filter (fun y => y != frm),
          (if x ∈ new then φ q0 + 1 else φ x) = k + 1 := by
        intro x hx
        obtain ⟨hxqt, hxbne⟩ := List.mem_filter.mp hx
        have hxf : x ≠ frm := by simpa using hxbne
        have hxdone := (hq x (List.mem_cons_of_mem _ hxqt)).2
        rw [if_neg (hnotnew x hxf hxdone)]
        refine hqb x ?_
        rw [hqb_eq]
        exact List.mem_cons_of_mem _ hx
      have hqb₂ : ∀ x ∈ new.filter (fun y => y != frm),
          (if x ∈ new then φ q0 + 1 else φ x) = (k + 1) + 1 := by
        intro x hx
        obtain ⟨hxn, -⟩ := List.mem_filter.mp hx
        rw [if_pos hxn]
        omega
      have hlayer' : ∀ z q, IsWalk g q frm z → q.length ≤ (k + 1) + 1 →
          doneB cf' frm z = true := by
        intro z q hw hql
        by_cases h1 : q.length ≤ k + 1
        · exact hmono z (hlayer z q hw h1)
        · exact hmono z (hpen z q hw (by omega))
      refine ⟨fun y => if y ∈ new then φ q0 + 1 else φ y, k + 1, hlen', hq', hptr', hopt',
        ⟨qt.filter (fun y => y != frm), new.filter (fun y => y != frm),
          List.filter_append qt new, hqa₂, hqb₂⟩,
        hlayer',
        fun y hy => hmono y (hroot y hy),
        bfs_closed_step hchar hscan_all hclosed⟩

theorem searchLoop_bfs_shortest {V E : Type} (g : Graph V E) (frm tgt : Nat)
    (hd : g.Dense) (htf : tgt ≠ frm) :
    ∀ (fuel : Nat) (cf : List (Option Nat)) (queue : List Nat),
      ((cf = List.replicate g.num_nodes none ∧ queue = [frm] ∧ frm < g.num_nodes) ∨
        (∃ φ k, BFSInv g frm cf queue φ k)) →
      ∀ pth, searchLoop g frm tgt SearchMode.BreadthFirst fuel cf queue = .ok (some pth) →
        IsWalk g pth frm tgt ∧ ∀ q, IsWalk g q frm tgt → pth.length ≤ q.length := by
  intro fuel
  induction fuel with
  | zero =>
    intro cf queue hinv pth hres
    cases queue with
    | nil =>
      rw [searchLoop_nil] at hres
      simp at hres
    | cons q0 qt =>
      have h0 : searchLoop g frm tgt SearchMode.BreadthFirst 0 cf (q0 :: qt) =
          .outOfFuel := rfl
      rw [h0] at hres
      exact Res.noConfusion hres
  | succ f ihf =>
    intro cf queue hinv pth hres
    cases queue with
    | nil =>
      rw [searchLoop_nil] at hres
      simp at hres
    | cons q0 qt =>
      have hc1 : (SearchMode.next SearchMode.BreadthFirst (q0 :: qt)).1 = q0 := rfl
      have hc2 : (SearchMode.next SearchMode.BreadthFirst (q0 :: qt)).2 = qt := rfl
      rcases hinv with ⟨hcf0, hq0eq, hfrm_lt⟩ | ⟨φ, k, hinv⟩
      · -- first iteration from the initial state
        obtain ⟨h1, h2⟩ := List.cons.inj hq0eq
        have h1' : frm = q0 := h1.symm
        subst h1'
        subst h2
        have hct : ¬ (frm = tgt) := fun h => htf h.symm
        have hclen : cf.length = g.num_nodes := by
          rw [hcf0]
          exact List.length_replicate _ _
        have hnone : ∀ x, cf.getD x none = none := by
          intro x
          rw [hcf0]
          exact getD_replicate none
        have hnbrs : ∀ p ∈ g.neighbors frm, p.1 < cf.length := by
          intro p hp
          have hmm : (p.1, p.2) ∈ g.neighbors frm := by rwa [Prod.mk.eta]
          rw [hclen]
          exact (adjB_lt hd (neighbors_mem_adjB hmm)).2
        obtain ⟨cf', new, hok, hlen2, hnd, hnew, hall, hchar, hcnt⟩ :=
          searchScan_spec frm (g.neighbors frm) cf [] hnbrs
        have hnew_adj : ∀ x ∈ new, adjB g frm x = true := by
          intro x hx
          obtain ⟨⟨e, he⟩, -⟩ := hnew x hx
          exact neighbors_mem_adjB he
        have hnew_undone : ∀ x ∈ new, cf.getD x none = none := fun x hx => (hnew x hx).2
        have hscan_all : ∀ y, adjB g frm y = true → doneB cf' frm y = true := by
          intro y hy
          obtain ⟨e, he⟩ := adjB_mem_neighbors hy
          have h3 := hall y e he
          unfold doneB
          rw [h3, Bool.or_true]
        obtain ⟨φ', hinv'⟩ := bfsInv_init hd hfrm_lt hclen hnone hnew_adj hnew_undone
          hscan_all hchar hcnt (by rw [hlen2, hclen])
        have hstep : searchLoop g frm tgt SearchMode.BreadthFirst (f + 1) cf (frm :: []) =
            searchLoop g frm tgt SearchMode.BreadthFirst f cf' ([] ++ new) := by
          rw [searchLoop_cons, hc1, hc2, if_neg hct, hok]
        rw [hstep] at hres
        exact ihf cf' ([] ++ new) (Or.inr ⟨φ', 1, hinv'⟩) pth hres
      · by_cases hct : q0 = tgt
        · -- target popped: the reconstructed path is optimal at depth φ tgt
          obtain ⟨hlen, hq, hptr, hopt, hlv, hlayer, hroot, hclosed⟩ := hinv
          obtain ⟨hq0_lt, hq0_done⟩ := hq q0 (List.mem_cons_self _ _)
          have hq0f : q0 ≠ frm := by
            rw [hct]
            exact htf
          have hset : (cf.getD q0 none).isSome = true := doneB_ptr hq0f hq0_done
          obtain ⟨p0, hp0⟩ := Option.isSome_iff_exists.mp hset
          have hbd := (hptr q0 p0 hq0f hp0).2.2.2.2
          obtain ⟨pth₀, hok, hwalk, hplen⟩ :=
            rebuildS_walk g frm cf φ hlen hptr (φ q0) q0 (Nat.le_refl _) hq0f hq0_lt hset
              (cf.length + 2) (by rw [hlen]; omega)
          have hstep : searchLoop g frm tgt SearchMode.BreadthFirst (f + 1) cf (q0 :: qt) =
              .ok (some pth₀) := by
            rw [searchLoop_cons, hc1, hc2, if_pos hct, hok]
          rw [hstep] at hres
          have hpe : pth₀ = pth := Option.some.inj (Res.ok.inj hres)
          subst hpe
          refine ⟨hct ▸ hwalk, ?_⟩
          intro q hwq
          have hwq' : IsWalk g q frm q0 := by
            rw [hct]
            exact hwq
          have h4 := hopt q0 hq0f hset q hwq'
          omega
        · -- ordinary pop: scan and recurse with the preserved invariant
          have hlen := hinv.1
          have hnbrs : ∀ p ∈ g.neighbors q0, p.1 < cf.length := by
            intro p hp
            have hmm : (p.1, p.2) ∈ g.neighbors q0 := by rwa [Prod.mk.eta]
            rw [hlen]
            exact (adjB_lt hd (neighbors_mem_adjB hmm)).2
          obtain ⟨cf', new, hok, hlen2, hnd, hnew, hall, hchar, hcnt⟩ :=
            searchScan_spec q0 (g.neighbors q0) cf qt hnbrs
          have hnew_adj : ∀ x ∈ new, adjB g q0 x = true := by
            intro x hx
            obtain ⟨⟨e, he⟩, -⟩ := hnew x hx
            exact neighbors_mem_adjB he
          have hnew_undone : ∀ x ∈ new, cf.getD x none = none := fun x hx => (hnew x hx).2
          have hscan_all : ∀ y, adjB g q0 y = true → doneB cf' frm y = true := by
            intro y hy
            obtain ⟨e, he⟩ := adjB_mem_neighbors hy
            have h3 := hall y e he
            unfold doneB
            rw [h3, Bool.or_true]
          obtain ⟨φ', k', hinv'⟩ :=
            bfsInv_step hd hinv hnew_adj hnew_undone hscan_all hchar hcnt hlen2
          have hstep : searchLoop g frm tgt SearchMode.BreadthFirst (f + 1) cf (q0 :: qt) =
              searchLoop g frm tgt SearchMode.BreadthFirst f cf' (qt ++ new) := by
            rw [searchLoop_cons, hc1, hc2, if_neg hct, hok]
          rw [hstep] at hres
          exact ihf cf' (qt ++ new) (Or.inr ⟨φ', k', hinv'⟩) pth hres

/-! ## Claim C5 -/

/-- Claim C5 fails as stated: in `gSparse` every edge joins two existing
nodes and nodes 0 and 2 are distinct and connected by an edge, yet
`search 0 2` panics in both modes instead of returning a path, because the
surviving identifier 2 is not below the node count used to size the
back-pointer vector. -/
theorem search_panics_on_connected_sparse_ids :
    (∀ p ∈ gSparse.edges, (gSparse.get_node p.1.1).isSome = true ∧
      (gSparse.get_node p.1.2).isSome = true) ∧
    gSparse.get_node 0 = some () ∧ gSparse.get_node 2 = some () ∧
    (0 : Nat) ≠ 2 ∧ Reach gSparse 0 2 ∧
    gSparse.search 0 2 SearchMode.BreadthFirst (gSparse.num_nodes + 1) = .panicked ∧
    gSparse.search 0 2 SearchMode.DepthFirst (gSparse.num_nodes + 1) = .panicked := by
  refine ⟨by decide, by decide, by decide, by decide,
    reach_iff_walk.mpr ⟨[0, 2], by decide⟩, by decide, by decide⟩

/-- Claim C5 amended: provided every node identifier and edge endpoint is
below the node count (as holds whenever no node was removed), for any two
distinct connected nodes and enough fuel the breadth-first search returns
a path from the first to the second that is shortest by node count (hence
by edge count) among all walks between them, the depth-first search
returns some path between them, and the breadth-first path is no longer
than the depth-first one. -/
theorem bfs_shortest_path_dfs_some_path {V E : Type} (g : Graph V E) (a b : Nat)
    (hd : g.Dense) (hab : a ≠ b) (hr : Reach g a b) (fuel fuel' : Nat)
    (hf : g.num_nodes + 1 ≤ fuel) (hf' : g.num_nodes + 1 ≤ fuel') :
    ∃ p p', g.search a b SearchMode.BreadthFirst fuel = .ok (some p) ∧
      g.search a b SearchMode.DepthFirst fuel' = .ok (some p') ∧
      IsWalk g p a b ∧ IsWalk g p' a b ∧
      (∀ q, IsWalk g q a b → p.length ≤ q.length) ∧
      p.length ≤ p'.length := by
  have htf : b ≠ a := fun h => hab h.symm
  have ha_lt : a < g.num_nodes := by
    rcases Relation.ReflTransGen.cases_head hr with h | ⟨c, hac, -⟩
    · exact absurd h hab
    · exact (adjB_lt hd hac).1
  obtain ⟨p₀, hw₀, hav⟩ := reach_walk_avoid hr
  have hinit_len : (List.replicate g.num_nodes (none : Option Nat)).length = g.num_nodes :=
    List.length_replicate _ _
  have hinit_ptr : PtrInv g a (List.replicate g.num_nodes none) (fun _ => 0) := by
    intro x p hxf hxp
    rw [getD_replicate none] at hxp
    cases hxp
  have hq_init : ∀ x ∈ [a],
      x < g.num_nodes ∧ doneB (List.replicate g.num_nodes none) a x = true := by
    intro x hx
    rcases List.mem_singleton.mp hx with rfl
    exact ⟨ha_lt, doneB_frm _ _⟩
  have hup : ∃ s ∈ [a], ∃ p, IsWalk g p s b ∧
      ∀ x ∈ p.tail, doneB (List.replicate g.num_nodes none) a x = false := by
    refine ⟨a, List.mem_singleton.mpr rfl, p₀, hw₀, ?_⟩
    intro x hx
    refine doneB_undone ?_ (getD_replicate none)
    intro hxa
    rw [hxa] at hx
    exact hav hx
  obtain ⟨p, hres, hwp⟩ := searchLoop_find g a b SearchMode.BreadthFirst hd htf fuel
    (List.replicate g.num_nodes none) [a] (fun _ => 0) hinit_len hq_init hinit_ptr
    (by rw [countNone_replicate, List.length_singleton]; exact hf) hup
  have hopt := searchLoop_bfs_shortest g a b hd htf fuel (List.replicate g.num_nodes none)
    [a] (Or.inl ⟨rfl, rfl, ha_lt⟩) p hres
  obtain ⟨p', hres', hwp'⟩ := searchLoop_find g a b SearchMode.DepthFirst hd htf fuel'
    (List.replicate g.num_nodes none) [a] (fun _ => 0) hinit_len hq_init hinit_ptr
    (by rw [countNone_replicate, List.length_singleton]; exact hf') hup
  refine ⟨p, p', ?_, ?_, hopt.1, hwp', hopt.2, hopt.2 p' hwp'⟩
  · rw [Graph.search]
    exact hres
  · rw [Graph.search]
    exact hres'

theorem bfs_shortest_path_dfs_some_path_witness :
    gDij.Dense ∧ (0 : Nat) ≠ 4 ∧ Reach gDij 0 4 ∧ gDij.num_nodes + 1 ≤ 11 ∧
    ∃ p p', gDij.search 0 4 SearchMode.BreadthFirst 11 = .ok (some p) ∧
      gDij.search 0 4 SearchMode.DepthFirst 11 = .ok (some p') ∧
      IsWalk gDij p 0 4 ∧ IsWalk gDij p' 0 4 ∧
      (∀ q, IsWalk gDij q 0 4 → p.length ≤ q.length) ∧
      p.length ≤ p'.length := by
  refine ⟨by decide, by decide, reach_iff_walk.mpr ⟨[0, 4], by decide⟩, by decide, ?_⟩
  exact bfs_shortest_path_dfs_some_path gDij 0 4 (by decide) (by decide)
    (reach_iff_walk.mpr ⟨[0, 4], by decide⟩) 11 11 (by decide) (by decide)
